import Mathlib

/-!
Verification of the claude-summary task coordination and rollup engine
(`claude-summary.py`), via a shallow embedding of its state and operations.

Filesystem state is modelled explicitly:
* a directory of files is an association list from file name to content;
* an append-only text file is the list of chunks successively written to it
  (its content is the concatenation of the chunks);
* `time.time()`, `date.today()` and the results of external processes
  (the `claude -p` summarizer) are supplied through an environment record,
  which is how the effectful reads of the Python code become parameters.
-/

namespace ClaudeSummary

/-! ## Generic association-list helpers (files in a directory) -/

/-- Insert or overwrite the value stored under key `k`. -/
def setAssoc [DecidableEq κ] : List (κ × α) → κ → α → List (κ × α)
  | [], k, v => [(k, v)]
  | (m, w) :: rest, k, v =>
    if m = k then (m, v) :: rest else (m, w) :: setAssoc rest k v

/-- Append one written chunk to the file named `k`, creating it if absent
(the semantics of `open(k, "a")` followed by a write). -/
def appendChunk : List (String × List String) → String → String → List (String × List String)
  | [], k, c => [(k, [c])]
  | (m, cs) :: rest, k, c =>
    if m = k then (m, cs ++ [c]) :: rest else (m, cs) :: appendChunk rest k c

/-! ## Calendar model (Python `datetime.date`, proleptic Gregorian) -/

/-- A calendar date, as `datetime.date(year, month, day)`. -/
structure Date where
  year : Nat
  month : Nat
  day : Nat
deriving DecidableEq, Repr

/-- Python `calendar.isleap` / the leap-year rule used by `datetime`. -/
def leapYear (y : Nat) : Bool := y % 4 = 0 && (y % 100 ≠ 0 || y % 400 = 0)

/-- Days in month `m` of year `y` (1-based month). -/
def daysInMonth (y m : Nat) : Nat :=
  if m = 2 then (if leapYear y then 29 else 28)
  else if m = 4 || m = 6 || m = 9 || m = 11 then 30
  else 31

/-- Days in year `y` strictly before month `m`. -/
def daysBeforeMonth (y m : Nat) : Nat :=
  ((List.range (m - 1)).map fun i => daysInMonth y (i + 1)).sum

/-- `datetime.date.toordinal`: day 1 is 0001-01-01. -/
def Date.toordinal (d : Date) : Nat :=
  let py := d.year - 1
  365 * py + py / 4 - py / 100 + py / 400 + daysBeforeMonth d.year d.month + d.day

/-- `date.weekday()`: Monday is 0.  0001-01-01 (ordinal 1) is a Monday. -/
def Date.weekday (d : Date) : Nat := (d.toordinal + 6) % 7

/-- Find the (month, day) of 1-based day-of-year `doy` in year `y`;
the first argument is fuel bounding the month scan at 12. -/
def monthDayGo (y : Nat) : Nat → Nat → Nat → Nat × Nat
  | 0, m, doy => (m, doy)
  | k + 1, m, doy =>
    let dim := daysInMonth y m
    if doy ≤ dim then (m, doy) else monthDayGo y k (m + 1) (doy - dim)

/-- `datetime.date.fromordinal` (inverse of `toordinal`), the standard
400/100/4/1-year decomposition used by CPython's `_ord2ymd`. -/
def Date.fromordinal (n : Nat) : Date :=
  let n0 := n - 1
  let n400 := n0 / 146097
  let r1 := n0 % 146097
  let n100 := r1 / 36524
  let r2 := r1 % 36524
  let n4 := r2 / 1461
  let r3 := r2 % 1461
  let n1 := r3 / 365
  let r4 := r3 % 365
  let year := n400 * 400 + n100 * 100 + n4 * 4 + n1 + 1
  if n1 = 4 || n100 = 4 then ⟨year - 1, 12, 31⟩
  else
    let md := monthDayGo year 12 1 (r4 + 1)
    ⟨year, md.1, md.2⟩

/-- Chronological order on dates (Python `date` comparison). -/
def Date.le (a b : Date) : Bool :=
  a.year < b.year ||
    (a.year = b.year &&
      (a.month < b.month || (a.month = b.month && a.day ≤ b.day)))

/-- Left-pad the decimal representation of `n` with zeros to width 2. -/
def pad2 (n : Nat) : String := if n < 10 then "0" ++ Nat.repr n else Nat.repr n

/-- Left-pad the decimal representation of `n` with zeros to width 4. -/
def pad4 (n : Nat) : String :=
  if n < 10 then "000" ++ Nat.repr n
  else if n < 100 then "00" ++ Nat.repr n
  else if n < 1000 then "0" ++ Nat.repr n
  else Nat.repr n

/-- `date.isoformat()`: `YYYY-MM-DD`. -/
def Date.iso (d : Date) : String := pad4 d.year ++ "-" ++ pad2 d.month ++ "-" ++ pad2 d.day

/-- `date.strftime("%Y-%m")`: `YYYY-MM`. -/
def Date.ym (d : Date) : String := pad4 d.year ++ "-" ++ pad2 d.month

/-- Decimal digit value of an ASCII digit character. -/
def digVal (c : Char) : Nat := c.toNat - 48

/-- ASCII decimal digit test (the digits accepted by `date.fromisoformat`
and produced by Python's decimal formatting). -/
def isDig (c : Char) : Bool := 48 ≤ c.toNat && c.toNat ≤ 57

/-- `date.fromisoformat` restricted to the canonical `YYYY-MM-DD` form:
ten characters, digits in the date positions, and the usual range checks
(`ValueError` on anything else is modelled as `none`). -/
def fromisoformat (s : String) : Option Date :=
  match s.data with
  | [y1, y2, y3, y4, h1, m1, m2, h2, d1, d2] =>
    if (isDig y1 && isDig y2 && isDig y3 && isDig y4 &&
        h1 = '-' && isDig m1 && isDig m2 && h2 = '-' && isDig d1 && isDig d2) then
      let y := ((digVal y1 * 10 + digVal y2) * 10 + digVal y3) * 10 + digVal y4
      let m := digVal m1 * 10 + digVal m2
      let d := digVal d1 * 10 + digVal d2
      if 1 ≤ y && 1 ≤ m && m ≤ 12 && 1 ≤ d && d ≤ daysInMonth y m then
        some ⟨y, m, d⟩
      else none
    else none
  | _ => none

/-! ## Decimal strings and lexicographic order

Queue task files are named `f"{int(time.time())}-{session_id[:8]}.json"` and
daily files `f"{date.isoformat()}.md"`; both are listed with `sorted(...)`,
i.e. in lexicographic filename order.  The lemmas here relate that order to
the numeric values of embedded decimal fields. -/

/-- Big-endian decimal digit characters of `n`; this is what `Nat.repr`
(and hence Python's decimal formatting of a non-negative int) produces. -/
def decDigits (n : Nat) : List Char :=
  if n < 10 then [Nat.digitChar n]
  else decDigits (n / 10) ++ [Nat.digitChar (n % 10)]
decreasing_by exact Nat.div_lt_self (by omega) (by omega)

/-- Value of a big-endian list of decimal digit characters. -/
def valOf : List Char → Nat
  | [] => 0
  | c :: cs => digVal c * 10 ^ cs.length + valOf cs

/-! ## Transcript model (JSONL files parsed line by line with `json.loads`)

A transcript file is a list of lines; each line is blank, fails to parse as
JSON, or parses to a JSON value.  JSON values use their parsed Python form
(`json.loads` output), so objects carry unique string keys. -/

/-- A parsed JSON value (output of `json.loads`). -/
inductive JVal where
  | str (s : String)
  | int (n : Int)
  | bool (b : Bool)
  | null
  | arr (xs : List JVal)
  | obj (fields : List (String × JVal))

/-- One line of a JSONL transcript file. -/
inductive PLine where
  | blank
  | malformed
  | val (v : JVal)

/-- Python `==` between a JSON value and a string literal. -/
def JVal.eqStr : JVal → String → Bool
  | .str t, s => t = s
  | _, _ => false

/-- `dict.get(k)` on a parsed JSON object. -/
def jget (fields : List (String × JVal)) (k : String) : Option JVal :=
  fields.lookup k

/-- Python truthiness of a JSON value. -/
def pyTruthy : JVal → Bool
  | .str s => s ≠ ""
  | .int n => n ≠ 0
  | .bool b => b
  | .null => false
  | .arr xs => !xs.isEmpty
  | .obj fs => !fs.isEmpty

/-- Python `len()` on a JSON value; `none` models a `TypeError`. -/
def pyLen : JVal → Option Nat
  | .str s => some s.length
  | .arr xs => some xs.length
  | .obj fs => some fs.length
  | _ => none

/-- Single-quote character, used by Python `repr` of strings. -/
def sq : String := String.singleton (Char.ofNat 39)

mutual

/-- Python `repr()` of a JSON value (string escaping inside quotes is not
modelled; no property proved below inspects this text). -/
def pyRepr : JVal → String
  | .str s => sq ++ s ++ sq
  | .int n => n.repr
  | .bool b => if b then "True" else "False"
  | .null => "None"
  | .arr xs => "[" ++ pyReprList xs ++ "]"
  | .obj fs => "\x7b" ++ pyReprObj fs ++ "\x7d"

/-- Comma-separated `repr`s of list elements. -/
def pyReprList : List JVal → String
  | [] => ""
  | [x] => pyRepr x
  | x :: y :: xs => pyRepr x ++ ", " ++ pyReprList (y :: xs)

/-- Comma-separated `repr`s of dict items. -/
def pyReprObj : List (String × JVal) → String
  | [] => ""
  | [(k, v)] => sq ++ k ++ sq ++ ": " ++ pyRepr v
  | (k, v) :: p :: fs => sq ++ k ++ sq ++ ": " ++ pyRepr v ++ ", " ++ pyReprObj (p :: fs)

end

/-- Python `str()` of a JSON value, as interpolated by an f-string. -/
def pyStr : JVal → String
  | .str s => s
  | v => pyRepr v

/-- `count_user_messages`: count lines that parse as a JSON object whose
`"type"` equals `"user"`.  A line whose JSON value is not an object raises
`AttributeError` at `entry.get`, which the function's outer handler turns
into returning the count accumulated so far (so the remainder contributes
nothing). -/
def count_user_messages : List PLine → Nat
  | [] => 0
  | .blank :: rest => count_user_messages rest
  | .malformed :: rest => count_user_messages rest
  | .val (.obj fs) :: rest =>
    (if ((jget fs "type").getD .null).eqStr "user" then 1 else 0) + count_user_messages rest
  | .val _ :: _ => 0

/-- Inner loop of `extract_conversation` over the blocks of a list-valued
`message.content`; `none` models an uncaught exception (propagating to the
outer handler).  Mirrors lines 154-166 of the source. -/
def processBlocks (role : String) : List JVal → List String → Nat → Option (List String × Nat)
  | [], msgs, total => some (msgs, total)
  | b :: rest, msgs, total =>
    match b with
    | .obj bs =>
      if ((jget bs "type").getD .null).eqStr "text" then
        let textV := (jget bs "text").getD (.str "")
        if pyTruthy textV then
          match pyLen textV with
          | none => none
          | some L =>
            if 600 < L then
              match textV with
              | .str s =>
                let text := s.take 600 ++ "...[截断]"
                processBlocks role rest (msgs ++ [role ++ ": " ++ text]) (total + text.length)
              | _ => none
            else
              processBlocks role rest (msgs ++ [role ++ ": " ++ pyStr textV]) (total + L)
        else processBlocks role rest msgs total
      else processBlocks role rest msgs total
    | _ => processBlocks role rest msgs total

/-- Outer loop of `extract_conversation` (lines 122-170 of the source):
processes each parsed line, accumulating messages and a running length;
`none` models an exception reaching the outer handler. -/
def extractLoop (maxChars : Nat) : List PLine → List String → Nat → Option (List String)
  | [], msgs, _ => some msgs
  | .blank :: rest, msgs, total => extractLoop maxChars rest msgs total
  | .malformed :: rest, msgs, total => extractLoop maxChars rest msgs total
  | .val v :: rest, msgs, total =>
    match v with
    | .obj fs =>
      let entryType := (jget fs "type").getD (.str "")
      if entryType.eqStr "summary" then
        let summary := (jget fs "summary").getD (.str "")
        if pyTruthy summary then
          let msgs1 := ("[对话摘要]: " ++ pyStr summary) :: msgs
          match pyLen summary with
          | none => none
          | some L => extractLoop maxChars rest msgs1 (total + L)
        else extractLoop maxChars rest msgs total
      else if !(entryType.eqStr "user" || entryType.eqStr "assistant") then
        extractLoop maxChars rest msgs total
      else
        let role := if entryType.eqStr "user" then "用户" else "Claude"
        match (jget fs "message").getD (.obj []) with
        | .obj ms =>
          let content := (jget ms "content").getD (.arr [])
          match content with
          | .str c =>
            let text := if 600 < c.length then c.take 600 ++ "...[截断]" else c
            let msgs1 := msgs ++ [role ++ ": " ++ text]
            let total1 := total + text.length
            if maxChars < total1 then some (msgs1 ++ ["...[对话过长已截断]"])
            else extractLoop maxChars rest msgs1 total1
          | .arr blocks =>
            match processBlocks role blocks msgs total with
            | none => none
            | some (msgs1, total1) =>
              if maxChars < total1 then some (msgs1 ++ ["...[对话过长已截断]"])
              else extractLoop maxChars rest msgs1 total1
          | _ =>
            if maxChars < total then some (msgs ++ ["...[对话过长已截断]"])
            else extractLoop maxChars rest msgs total
        | _ => none
    | _ => none

/-- `extract_conversation` on the lines of an existing transcript file
(the caller has already checked existence).  Returns `""` when an exception
was swallowed by the outer handler or no messages were produced. -/
def extract_conversation (lines : List PLine) (maxChars : Nat) : String :=
  match extractLoop maxChars lines [] 0 with
  | none => ""
  | some msgs => String.intercalate "\n\n" msgs

/-- One fuel-indexed pass of `str.replace`: replace each non-overlapping
occurrence of `pat`, scanning left to right.  Fuel at least the length of
the scanned list makes the fuel case unreachable for non-empty `pat`. -/
def replaceFuel (pat rep : List Char) : Nat → List Char → List Char
  | 0, s => s
  | _ + 1, [] => []
  | fuel + 1, c :: cs =>
    if pat.isPrefixOf (c :: cs) then
      rep ++ replaceFuel pat rep fuel (List.drop pat.length (c :: cs))
    else c :: replaceFuel pat rep fuel cs

/-- Python `str.replace` (all occurrences).  The code only ever replaces
the non-empty literals `".md"`, `"week-"` and `".maintenance-"`, so the
empty-pattern behaviour is irrelevant. -/
def strReplace (s pattern replacement : String) : String :=
  if pattern = "" then s
  else ⟨replaceFuel pattern.data replacement.data s.data.length s.data⟩

/-! ## Persistent state and environment -/

/-- A queued work item, the JSON object written by `enqueue_task`. -/
structure Task where
  transcript_path : String
  cwd : String
  session_id : String
  timestamp : Nat
deriving DecidableEq, Repr

/-- Content of a file in the queue directory, as seen by
`get_pending_tasks`: a task object, unparsable bytes (`json.load` raises
and the file is skipped), or parsable JSON that is not an object (the
subsequent item assignment raises `TypeError` and the file is skipped). -/
inductive QContent where
  | task (t : Task)
  | notJson
  | notDict
deriving DecidableEq, Repr

/-- A file in the queue directory. -/
structure QEntry where
  name : String
  mtime : Nat
  content : QContent
deriving DecidableEq, Repr

/-- The durable stores under the base directory (queue aside):
the Dedup Ledger (`.summarized/` markers with their mtimes), the Daily
Records (`daily/*.md`, as appended chunks), the Weekly Records
(`weekly/*.md`), the Monthly Archive (`monthly/<YYYY-MM>/<file>`), and the
maintenance markers (`.maintenance-<date>`). -/
structure Store where
  summarized : List (String × Nat)
  daily : List (String × List String)
  weekly : List (String × String)
  monthly : List ((String × String) × String)
  maintMarkers : List String
deriving DecidableEq, Repr

/-- The ambient facts a run reads from outside the persistent store:
the transcript files (`fs`, path to parsed lines, `none` when the path does
not exist), the marker key function (`hash`, standing for the md5-prefix
`transcript_hash`, used only through its determinism), the summarizer
(`summarize`, the value `summarize_with_claude` returns: the stripped
stdout on success, `""` on non-zero exit, missing binary, timeout or any
other exception), the `MIN_MESSAGES` configuration, and the clock
(`today`, `now` as `HH:MM`, `nowTs` as `time.time()`). -/
structure Env where
  fs : String → Option (List PLine)
  hash : String → String
  summarize : String → String
  minMessages : Nat
  today : Date
  now : String
  nowTs : Nat

/-- `is_summarized`: does a dedup marker exist for this transcript path? -/
def is_summarized (env : Env) (st : Store) (tp : String) : Bool :=
  (st.summarized.lookup (env.hash tp)).isSome

/-- `mark_summarized`: `Path(marker).touch()` — create the marker or
refresh its mtime. -/
def mark_summarized (env : Env) (st : Store) (tp : String) : Store :=
  { st with summarized := setAssoc st.summarized (env.hash tp) env.nowTs }

/-- `save_daily`: create today's daily file with its header if absent,
then append one timestamped entry. -/
def save_daily (env : Env) (st : Store) (summary sid : String) : Store :=
  let fname := env.today.iso ++ ".md"
  let daily0 :=
    if (st.daily.lookup fname).isSome then st.daily
    else st.daily ++ [(fname, ["# 📅 " ++ env.today.iso ++ " 经验总结\n"])]
  let entry := "\n---\n\n### ⏰ " ++ env.now ++
    (if sid ≠ "" then "  `" ++ sid.take 8 ++ "`" else "") ++ "\n\n" ++ summary ++ "\n"
  { st with daily := appendChunk daily0 fname entry }

/-- Python's ASCII whitespace test used by `str.strip()` (the rarely seen
Unicode spaces Python also strips are irrelevant to every property below). -/
def isWs (c : Char) : Bool :=
  c = ' ' || c = '\t' || c = '\n' || c = '\r' || c = '\x0b' || c = '\x0c'

/-- Drop leading whitespace characters. -/
def dropLeadWs : List Char → List Char
  | [] => []
  | c :: cs => if isWs c then dropLeadWs cs else c :: cs

/-- Python `str.strip()`: remove leading and trailing whitespace. -/
def pyStrip (s : String) : String :=
  ⟨(dropLeadWs (dropLeadWs s.data).reverse).reverse⟩

/-- `process_task` (lines 325-369 of the source): handle one queued task,
returning the updated store and the success flag. -/
def process_task (env : Env) (st : Store) (task : Task) : Store × Bool :=
  let tp := task.transcript_path
  if tp = "" then (st, false)
  else
    match env.fs tp with
    | none => (st, false)
    | some tlines =>
      if is_summarized env st tp then (st, true)
      else if count_user_messages tlines < env.minMessages then
        (mark_summarized env st tp, true)
      else
        let conversation := extract_conversation tlines 20000
        if conversation = "" then (mark_summarized env st tp, true)
        else
          let summary := env.summarize conversation
          if summary = "" then (st, false)
          else if pyStrip summary = "SKIP" then (mark_summarized env st tp, true)
          else (mark_summarized env (save_daily env st summary task.session_id) tp, true)

/-- Total number of entries across all Daily Records: every chunk after a
file's first (header) chunk is one `### ⏰` entry appended by `save_daily`. -/
def dailyEntries (daily : List (String × List String)) : Nat :=
  (daily.map fun p => p.2.length - 1).sum

/-! ## Task queue -/

/-- The queue file name `f"{int(time.time())}-{session_id[:8]}.json"`. -/
def task_filename (ts : Nat) (sid : String) : String :=
  Nat.repr ts ++ "-" ++ sid.take 8 ++ ".json"

/-- `enqueue_task`: write a new uniquely named task file. -/
def enqueue_task (env : Env) (q : List QEntry) (tp cwd sid : String) : List QEntry :=
  q ++ [⟨task_filename env.nowTs sid, env.nowTs, .task ⟨tp, cwd, sid, env.nowTs⟩⟩]

/-- Python `str.endswith`, as a character-level suffix test. -/
def strEndsWith (s suffix : String) : Bool := suffix.data.isSuffixOf s.data

/-- Computable lexicographic comparison of character lists (by code
point), the order `sorted(...)` uses on file names. -/
def charListLe : List Char → List Char → Bool
  | [], _ => true
  | _ :: _, [] => false
  | c :: cs, d :: ds =>
    if c.toNat < d.toNat then true
    else if d.toNat < c.toNat then false
    else charListLe cs ds

/-- Computable string comparison: `strLe a b` decides `a ≤ b`. -/
def strLe (a b : String) : Bool := charListLe a.data b.data

/-- What `get_pending_tasks` keeps of one directory entry: `.json` files
whose content parses to a task object, everything else silently skipped. -/
def qsel (e : QEntry) : Option (String × Task) :=
  if strEndsWith e.name ".json" then
    match e.content with
    | .task t => some (e.name, t)
    | _ => none
  else none

/-- `get_pending_tasks`: list the queue in sorted filename order, keeping
parsable `.json` tasks (each paired with its file name, the `_filepath`). -/
def get_pending_tasks (q : List QEntry) : List (String × Task) :=
  (q.insertionSort fun a b => strLe a.name b.name = true).filterMap qsel

/-- `remove_task`: delete the queue file with the given name. -/
def remove_task (q : List QEntry) (n : String) : List QEntry :=
  q.filter fun e => e.name != n

/-- `cleanup_queue`: delete queue files older than 7 days. -/
def cleanup_queue (now : Nat) (q : List QEntry) : List QEntry :=
  q.filter fun e => !decide (e.mtime < now - 7 * 86400)

/-- `cleanup_summarized`: purge dedup markers older than 7 days. -/
def cleanup_summarized (now : Nat) (st : Store) : Store :=
  { st with summarized := st.summarized.filter fun p => !decide (p.2 < now - 7 * 86400) }

/-! ### Termination of the drain loop

The next four lemmas must precede `drainLoop`: its well-founded recursion
consumes `drain_decrease`. -/

theorem qsel_name {e : QEntry} {n : String} {t : Task} (h : qsel e = some (n, t)) :
    e.name = n := by
  unfold qsel at h
  split at h
  · split at h
    · rw [Option.some_inj] at h
      exact congrArg Prod.fst h
    · cases h
  · cases h

theorem length_filterMap_filter_lt (f : α → Option β) (p : α → Bool) :
    ∀ (l : List α) (x : α), x ∈ l → (f x).isSome → p x = false →
      ((l.filter p).filterMap f).length < (l.filterMap f).length := by
  intro l
  induction l with
  | nil => intro x hx _ _; cases hx
  | cons a l ih =>
    intro x hx hf hp
    have hle : ((l.filter p).filterMap f).length ≤ (l.filterMap f).length :=
      ((List.filter_sublist l).filterMap f).length_le
    rcases List.mem_cons.mp hx with rfl | hx'
    · rw [List.filter_cons, if_neg (by simp [hp])]
      obtain ⟨b, hb⟩ := Option.isSome_iff_exists.mp hf
      rw [List.filterMap_cons_some hb, List.length_cons]
      omega
    · have hlt := ih x hx' hf hp
      rw [List.filter_cons]
      by_cases hpa : p a = true
      · rw [if_pos hpa]
        cases hfa : f a with
        | none => rw [List.filterMap_cons_none hfa, List.filterMap_cons_none hfa]; exact hlt
        | some b =>
          rw [List.filterMap_cons_some hfa, List.filterMap_cons_some hfa,
            List.length_cons, List.length_cons]
          omega
      · rw [if_neg hpa]
        cases hfa : f a with
        | none => rw [List.filterMap_cons_none hfa]; exact hlt
        | some b => rw [List.filterMap_cons_some hfa, List.length_cons]; omega

theorem get_pending_length (q : List QEntry) :
    (get_pending_tasks q).length = (q.filterMap qsel).length :=
  ((List.perm_insertionSort _ q).filterMap qsel).length_eq

theorem drain_decrease {q : List QEntry} {n : String} {t : Task}
    {rest : List (String × Task)} (h : get_pending_tasks q = (n, t) :: rest) :
    (get_pending_tasks (remove_task q n)).length < (get_pending_tasks q).length := by
  have hmem : (n, t) ∈ get_pending_tasks q := by rw [h]; exact List.mem_cons_self _ _
  rw [get_pending_tasks] at hmem
  obtain ⟨e, he, hsel⟩ := List.mem_filterMap.mp hmem
  have heq : e ∈ q := (List.perm_insertionSort _ q).subset he
  have hname : e.name = n := qsel_name hsel
  rw [get_pending_length, get_pending_length]
  exact length_filterMap_filter_lt qsel (fun e => e.name != n) q e heq
    (by rw [hsel]; rfl) (by simp [hname])

set_option linter.unusedVariables false in
/-- The drain loop of `process_queue` (lines 564-576 of the source):
while tasks are pending, process the oldest and unconditionally remove its
file, whatever the outcome. -/
def drainLoop (env : Env) (q : List QEntry) (st : Store) : List QEntry × Store :=
  match h : get_pending_tasks q with
  | [] => (q, st)
  | (n, t) :: _ =>
    drainLoop env (remove_task q n) (process_task env st t).1
termination_by (get_pending_tasks q).length
decreasing_by exact drain_decrease h

/-! ## Rollup engine -/

/-- `last_week_range`: the previous Monday-to-Sunday week relative to
`today` (`today - timedelta(days=today.weekday() + 7)` and 6 days on). -/
def last_week_range (today : Date) : Date × Date :=
  let lm := Date.fromordinal (today.toordinal - (today.weekday + 7))
  (lm, Date.fromordinal (lm.toordinal + 6))

/-- One step of the gathering filter of `generate_weekly`: keep an `.md`
file whose stripped name parses as a date within `[lm, ls]`. -/
def weekSel (lm ls : Date) (f : String) : Option String :=
  if strEndsWith f ".md" then
    match fromisoformat (strReplace f ".md" "") with
    | some d => if Date.le lm d && Date.le d ls then some f else none
    | none => none
  else none

/-- The daily files `generate_weekly` gathers: `.md` files in sorted name
order whose name parses as a date within `[lm, ls]`. -/
def weekDailyFiles (lm ls : Date) (daily : List (String × List String)) : List String :=
  ((daily.map Prod.fst).insertionSort fun a b => strLe a b = true).filterMap (weekSel lm ls)

/-- The text `generate_weekly` writes: the header line followed, for each
gathered daily file in order, by a newline and that file's full content. -/
def weeklyContent (lm ls : Date) (daily : List (String × List String)) : String :=
  "# 📊 周报: " ++ lm.iso ++ " ~ " ++ ls.iso ++ "\n" ++
    String.join ((weekDailyFiles lm ls daily).map fun f =>
      "\n" ++ String.join ((daily.lookup f).getD []))

/-- Body of `generate_weekly` for a given week range: skip if the weekly
file exists, skip if no daily file is in range, else write the weekly file
and delete the gathered daily files. -/
def generate_weekly_range (lm ls : Date) (st : Store) : Store :=
  let weekly_file := "week-" ++ lm.iso ++ ".md"
  if (st.weekly.lookup weekly_file).isSome then st
  else
    let dfs := weekDailyFiles lm ls st.daily
    if dfs.isEmpty then st
    else
      { st with
        weekly := st.weekly ++ [(weekly_file, weeklyContent lm ls st.daily)],
        daily := st.daily.filter fun p => !(dfs.contains p.1) }

/-- `generate_weekly`: merge last week's daily files into a weekly file. -/
def generate_weekly (today : Date) (st : Store) : Store :=
  generate_weekly_range (last_week_range today).1 (last_week_range today).2 st

/-- Does `archive_monthly` move this weekly-directory file: an `.md` file
whose name (with `week-` and `.md` stripped) parses as a date whose
`%Y-%m` equals the concluded month. -/
def isArchTarget (lm : String) (f : String) : Bool :=
  strEndsWith f ".md" &&
    match fromisoformat (strReplace (strReplace f "week-" "") ".md" "") with
    | some d => d.ym == lm
    | none => false

/-- `shutil.move` of each gathered file into the month directory. -/
def moveWeeklies (mdir : String) : List (String × String) →
    List ((String × String) × String) → List ((String × String) × String)
  | [], monthly => monthly
  | (f, c) :: rest, monthly => moveWeeklies mdir rest (setAssoc monthly (mdir, f) c)

/-- The `%Y-%m` key of the just-concluded month:
`(today.replace(day=1) - timedelta(days=1)).strftime("%Y-%m")`. -/
def lastMonthStr (today : Date) : String :=
  (Date.fromordinal ((Date.mk today.year today.month 1).toordinal - 1)).ym

/-- `archive_monthly` (lines 450-481 of the source): only within the first
7 days of a month, move last month's weekly files into the month archive. -/
def archive_monthly (today : Date) (st : Store) : Store :=
  if 7 < today.day then st
  else
    { st with
      weekly := st.weekly.filter fun p => !(isArchTarget (lastMonthStr today) p.1),
      monthly := moveWeeklies (lastMonthStr today)
        (st.weekly.filter fun p => isArchTarget (lastMonthStr today) p.1) st.monthly }

/-- The pruning filter of `monday_maintenance`: keep a maintenance marker
unless its embedded date parses and is older than 7 days (unparsable names
survive via the swallowed exception). -/
def keepMaintMarker (today : Date) (f : String) : Bool :=
  match fromisoformat (strReplace f ".maintenance-" "") with
  | some d => !decide (d.toordinal < today.toordinal - 7)
  | none => true

/-- `monday_maintenance`: on Mondays, gated by the per-day marker, run the
weekly merge, the two cleanups and the monthly archive, then write today's
marker and prune markers older than 7 days. -/
def monday_maintenance (env : Env) (q : List QEntry) (st : Store) : List QEntry × Store :=
  if env.today.weekday ≠ 0 then (q, st)
  else if st.maintMarkers.contains (".maintenance-" ++ env.today.iso) then (q, st)
  else
    let st1 := generate_weekly env.today st
    let st2 := cleanup_summarized env.nowTs st1
    let q1 := cleanup_queue env.nowTs q
    let st3 := archive_monthly env.today st2
    let marks := st3.maintMarkers ++ [".maintenance-" ++ env.today.iso]
    (q1, { st3 with maintMarkers := marks.filter (keepMaintMarker env.today) })

/-- `process_queue` (lines 550-582 of the source): with the advisory lock
already held by another process (`lockHeld`), log and exit; otherwise
drain the queue and run the Monday maintenance. -/
def process_queue (env : Env) (lockHeld : Bool) (q : List QEntry) (st : Store) :
    List QEntry × Store :=
  if lockHeld then (q, st)
  else
    let qs := drainLoop env q st
    monday_maintenance env qs.1 qs.2

/-! ## Lemmas: association lists, decimal strings, lexicographic order -/

theorem beq_false_of_ne [BEq κ] [LawfulBEq κ] {a b : κ} (h : a ≠ b) : (a == b) = false :=
  beq_eq_false_iff_ne.mpr h

theorem lookup_setAssoc_self [DecidableEq κ] [BEq κ] [LawfulBEq κ]
    (l : List (κ × α)) (k : κ) (v : α) :
    (setAssoc l k v).lookup k = some v := by
  induction l with
  | nil => simp [setAssoc, List.lookup]
  | cons p rest ih =>
    obtain ⟨m, w⟩ := p
    simp only [setAssoc]
    by_cases h : m = k
    · subst h; simp [List.lookup]
    · rw [if_neg h]
      simp only [List.lookup, beq_false_of_ne (Ne.symm h)]
      exact ih

theorem lookup_setAssoc_ne [DecidableEq κ] [BEq κ] [LawfulBEq κ]
    (l : List (κ × α)) (k m : κ) (v : α) (h : m ≠ k) :
    (setAssoc l k v).lookup m = l.lookup m := by
  induction l with
  | nil => simp [setAssoc, List.lookup, beq_false_of_ne h]
  | cons p rest ih =>
    obtain ⟨n, w⟩ := p
    simp only [setAssoc]
    by_cases hn : n = k
    · subst hn
      rw [if_pos rfl]
      simp [List.lookup, beq_false_of_ne h]
    · rw [if_neg hn]
      by_cases hm : m = n
      · subst hm; simp [List.lookup]
      · simp only [List.lookup, beq_false_of_ne hm]
        exact ih

theorem toDigitsCore_eq (fuel n : Nat) (ds : List Char) (h : n < fuel) :
    Nat.toDigitsCore 10 fuel n ds = decDigits n ++ ds := by
  induction fuel generalizing n ds with
  | zero => omega
  | succ f ih =>
    rw [Nat.toDigitsCore]
    by_cases h10 : n / 10 = 0
    · have hn : n < 10 := by omega
      rw [if_pos h10, decDigits, if_pos hn, Nat.mod_eq_of_lt hn]
      rfl
    · have hge : 10 ≤ n := by omega
      have hlt : n / 10 < f := by omega
      rw [if_neg h10, ih (n / 10) (Nat.digitChar (n % 10) :: ds) hlt]
      conv_rhs => rw [decDigits]
      rw [if_neg (by omega : ¬ n < 10), List.append_assoc]
      rfl

/-- The characters of `Nat.repr n` are exactly `decDigits n`. -/
theorem repr_data (n : Nat) : (Nat.repr n).data = decDigits n := by
  show (Nat.toDigits 10 n).asString.data = decDigits n
  show Nat.toDigitsCore 10 (n + 1) n [] = decDigits n
  rw [toDigitsCore_eq n.succ n [] (Nat.lt_succ_self n), List.append_nil]

theorem valOf_append_singleton (cs : List Char) (c : Char) :
    valOf (cs ++ [c]) = 10 * valOf cs + digVal c := by
  induction cs with
  | nil => simp [valOf]
  | cons d cs ih =>
    show digVal d * 10 ^ (cs ++ [c]).length + valOf (cs ++ [c]) =
      10 * (digVal d * 10 ^ cs.length + valOf cs) + digVal c
    rw [ih, List.length_append, List.length_singleton, pow_succ]
    ring

theorem digitChar_isDig : ∀ d, d < 10 → isDig (Nat.digitChar d) = true := by decide

theorem digVal_digitChar : ∀ d, d < 10 → digVal (Nat.digitChar d) = d := by decide

theorem decDigits_digits (n : Nat) : ∀ c ∈ decDigits n, isDig c = true := by
  induction n using Nat.strong_induction_on with
  | _ n ih =>
    rw [decDigits]
    by_cases h : n < 10
    · rw [if_pos h]
      intro c hc
      rw [List.mem_singleton] at hc
      subst hc
      exact digitChar_isDig n h
    · rw [if_neg h]
      intro c hc
      rcases List.mem_append.mp hc with h1 | h2
      · exact ih (n / 10) (Nat.div_lt_self (by omega) (by omega)) c h1
      · rw [List.mem_singleton] at h2
        subst h2
        exact digitChar_isDig (n % 10) (Nat.mod_lt n (by omega))

theorem valOf_decDigits (n : Nat) : valOf (decDigits n) = n := by
  induction n using Nat.strong_induction_on with
  | _ n ih =>
    rw [decDigits]
    by_cases h : n < 10
    · rw [if_pos h]
      simp [valOf, digVal_digitChar n h]
    · rw [if_neg h, valOf_append_singleton,
        ih (n / 10) (Nat.div_lt_self (by omega) (by omega)),
        digVal_digitChar (n % 10) (Nat.mod_lt n (by omega))]
      omega

theorem digVal_le_9 {c : Char} (h : isDig c = true) : digVal c ≤ 9 := by
  simp only [isDig, Bool.and_eq_true, decide_eq_true_eq] at h
  simp only [digVal]
  omega

theorem valOf_lt_pow (cs : List Char) (h : ∀ c ∈ cs, isDig c = true) :
    valOf cs < 10 ^ cs.length := by
  induction cs with
  | nil => simp [valOf]
  | cons c cs ih =>
    have h9 : digVal c ≤ 9 := digVal_le_9 (h c (List.mem_cons_self c cs))
    have hrec := ih fun d hd => h d (List.mem_cons_of_mem c hd)
    have hp : 0 < 10 ^ cs.length := Nat.pos_pow_of_pos cs.length (by omega)
    simp only [valOf, List.length_cons, pow_succ]
    nlinarith

theorem char_lt_of_toNat_lt {c d : Char} (h : c.toNat < d.toNat) : c < d := h

theorem char_lt_of_digVal_lt {c d : Char} (hc : isDig c = true) (hd : isDig d = true)
    (h : digVal c < digVal d) : c < d := by
  simp only [isDig, Bool.and_eq_true, decide_eq_true_eq] at hc hd
  simp only [digVal] at h
  exact char_lt_of_toNat_lt (by omega)

theorem char_eq_of_digVal_eq {c d : Char} (hc : isDig c = true) (hd : isDig d = true)
    (h : digVal c = digVal d) : c = d := by
  simp only [isDig, Bool.and_eq_true, decide_eq_true_eq] at hc hd
  simp only [digVal] at h
  have : c.toNat = d.toNat := by omega
  exact Char.eq_of_val_eq (UInt32.toNat.inj this)

theorem mul_pow_le_of_digVal_lt {a b K : Nat} (h : a < b) :
    a * K + K ≤ b * K := by
  have h1 : (a + 1) * K ≤ b * K := Nat.mul_le_mul_right K (by omega)
  rw [add_mul, one_mul] at h1
  exact h1

/-- On equal-length runs of decimal digits, the lexicographic order of the
surrounding character lists is decided by the numeric values of the runs. -/
theorem digitList_lt_of_valOf_lt :
    ∀ (xs ys u v : List Char), xs.length = ys.length →
      (∀ c ∈ xs, isDig c = true) → (∀ c ∈ ys, isDig c = true) →
      valOf xs < valOf ys → xs ++ u < ys ++ v
  | [], [], _, _, _, _, _, hval => by simp [valOf] at hval
  | [], y :: ys, _, _, hlen, _, _, _ => by simp at hlen
  | x :: xs, [], _, _, hlen, _, _, _ => by simp at hlen
  | x :: xs, y :: ys, u, v, hlen, hx, hy, hval => by
    have hlen' : xs.length = ys.length := by simpa using hlen
    have hxd : isDig x = true := hx x (List.mem_cons_self x xs)
    have hyd : isDig y = true := hy y (List.mem_cons_self y ys)
    have hxs : ∀ c ∈ xs, isDig c = true := fun c hc => hx c (List.mem_cons_of_mem x hc)
    have hys : ∀ c ∈ ys, isDig c = true := fun c hc => hy c (List.mem_cons_of_mem y hc)
    rcases Nat.lt_trichotomy (digVal x) (digVal y) with hd | hd | hd
    · exact List.Lex.rel (char_lt_of_digVal_lt hxd hyd hd)
    · have hxy : x = y := char_eq_of_digVal_eq hxd hyd hd
      subst hxy
      have hval' : valOf xs < valOf ys := by
        simp only [valOf, hlen'] at hval
        omega
      exact List.Lex.cons (digitList_lt_of_valOf_lt xs ys u v hlen' hxs hys hval')
    · exfalso
      have hbound : valOf ys < 10 ^ ys.length := valOf_lt_pow ys hys
      have hstep : digVal y * 10 ^ ys.length + 10 ^ ys.length ≤ digVal x * 10 ^ ys.length :=
        mul_pow_le_of_digVal_lt hd
      simp only [valOf, hlen'] at hval
      omega

/-- Equal-length digit runs with equal values are equal character lists. -/
theorem digitList_eq_of_valOf_eq :
    ∀ (xs ys : List Char), xs.length = ys.length →
      (∀ c ∈ xs, isDig c = true) → (∀ c ∈ ys, isDig c = true) →
      valOf xs = valOf ys → xs = ys
  | [], [], _, _, _, _ => rfl
  | [], y :: ys, hlen, _, _, _ => by simp at hlen
  | x :: xs, [], hlen, _, _, _ => by simp at hlen
  | x :: xs, y :: ys, hlen, hx, hy, hval => by
    have hlen' : xs.length = ys.length := by simpa using hlen
    have hxd : isDig x = true := hx x (List.mem_cons_self x xs)
    have hyd : isDig y = true := hy y (List.mem_cons_self y ys)
    have hxs : ∀ c ∈ xs, isDig c = true := fun c hc => hx c (List.mem_cons_of_mem x hc)
    have hys : ∀ c ∈ ys, isDig c = true := fun c hc => hy c (List.mem_cons_of_mem y hc)
    have hbx : valOf xs < 10 ^ xs.length := valOf_lt_pow xs hxs
    have hby : valOf ys < 10 ^ ys.length := valOf_lt_pow ys hys
    rw [hlen'] at hbx
    have hpos : 0 < 10 ^ ys.length := Nat.pos_pow_of_pos ys.length (by omega)
    have hd : digVal x = digVal y := by
      rcases Nat.lt_trichotomy (digVal x) (digVal y) with h | h | h
      · exfalso
        have hstep := mul_pow_le_of_digVal_lt (K := 10 ^ ys.length) h
        simp only [valOf, hlen'] at hval
        omega
      · exact h
      · exfalso
        have hstep := mul_pow_le_of_digVal_lt (K := 10 ^ ys.length) h
        simp only [valOf, hlen'] at hval
        omega
    have hxy : x = y := char_eq_of_digVal_eq hxd hyd hd
    subst hxy
    have hval' : valOf xs = valOf ys := by
      simp only [valOf, hlen'] at hval
      omega
    rw [digitList_eq_of_valOf_eq xs ys hlen' hxs hys hval']

/-- Lexicographic comparison ignores a common prefix. -/
theorem lex_append_left (p : List Char) {u v : List Char} (h : u < v) :
    p ++ u < p ++ v := by
  induction p with
  | nil => exact h
  | cons c p ih => exact List.Lex.cons ih

/-- Appending after strictly ordered equal-width decimal prefixes keeps the
string order, whatever the suffixes: this is why files named
`{timestamp}-{prefix8}.json` list in timestamp order while timestamps have
equal digit counts. -/
theorem repr_append_lt {t1 t2 : Nat} (u v : String) (h : t1 < t2)
    (hlen : (Nat.repr t1).length = (Nat.repr t2).length) :
    Nat.repr t1 ++ u < Nat.repr t2 ++ v := by
  rw [String.lt_iff_toList_lt]
  show (Nat.repr t1 ++ u).data < (Nat.repr t2 ++ v).data
  rw [String.data_append, String.data_append, repr_data, repr_data]
  have hlen' : (decDigits t1).length = (decDigits t2).length := by
    have e1 : (Nat.repr t1).length = (decDigits t1).length := by
      show (Nat.repr t1).data.length = _
      rw [repr_data]
    have e2 : (Nat.repr t2).length = (decDigits t2).length := by
      show (Nat.repr t2).data.length = _
      rw [repr_data]
    omega
  exact digitList_lt_of_valOf_lt _ _ _ _ hlen' (decDigits_digits t1) (decDigits_digits t2)
    (by rw [valOf_decDigits, valOf_decDigits]; exact h)

/-! ## Helper lemmas about `process_task` and its pieces -/

theorem mark_summarized_daily (env : Env) (st : Store) (tp : String) :
    (mark_summarized env st tp).daily = st.daily := rfl

theorem mark_summarized_summarized (env : Env) (st : Store) (tp : String) :
    (mark_summarized env st tp).summarized =
      setAssoc st.summarized (env.hash tp) env.nowTs := rfl

theorem save_daily_summarized (env : Env) (st : Store) (s sid : String) :
    (save_daily env st s sid).summarized = st.summarized := rfl

theorem is_summarized_mark (env : Env) (st : Store) (tp : String) :
    is_summarized env (mark_summarized env st tp) tp = true := by
  simp [is_summarized, mark_summarized, lookup_setAssoc_self]

theorem dailyEntries_append_new (d : List (String × List String)) (k h1 : String) :
    dailyEntries (d ++ [(k, [h1])]) = dailyEntries d := by
  simp [dailyEntries]

theorem dailyEntries_appendChunk_le (d : List (String × List String)) (k c : String) :
    dailyEntries (appendChunk d k c) ≤ dailyEntries d + 1 := by
  induction d with
  | nil => simp [appendChunk, dailyEntries]
  | cons p rest ih =>
    obtain ⟨m, cs⟩ := p
    by_cases h : m = k
    · subst h
      rw [show appendChunk ((m, cs) :: rest) m c = (m, cs ++ [c]) :: rest from by
        unfold appendChunk; rw [if_pos rfl]]
      simp only [dailyEntries, List.map_cons, List.sum_cons, List.length_append,
        List.length_singleton]
      omega
    · rw [show appendChunk ((m, cs) :: rest) k c = (m, cs) :: appendChunk rest k c from by
        conv_lhs => rw [appendChunk]
        rw [if_neg h]]
      simp only [dailyEntries, List.map_cons, List.sum_cons]
      have := ih
      simp only [dailyEntries] at this
      omega

theorem dailyEntries_save_daily_le (env : Env) (st : Store) (s sid : String) :
    dailyEntries (save_daily env st s sid).daily ≤ dailyEntries st.daily + 1 := by
  unfold save_daily
  by_cases h : (st.daily.lookup (env.today.iso ++ ".md")).isSome
  · simp only [h, if_pos rfl]
    exact dailyEntries_appendChunk_le _ _ _
  · simp only [h]
    calc dailyEntries (appendChunk (st.daily ++ [(env.today.iso ++ ".md",
          ["# 📅 " ++ env.today.iso ++ " 经验总结\n"])]) (env.today.iso ++ ".md") _)
        ≤ dailyEntries (st.daily ++ [(env.today.iso ++ ".md",
          ["# 📅 " ++ env.today.iso ++ " 经验总结\n"])]) + 1 :=
          dailyEntries_appendChunk_le _ _ _
      _ = dailyEntries st.daily + 1 := by rw [dailyEntries_append_new]

/-- Exhaustive description of the outcomes of `process_task`: failure with
the store untouched; no-op success on an already-marked source; or success
that adds / refreshes exactly the dedup marker and appends at most one
daily entry. -/
theorem process_task_outcomes (env : Env) (st : Store) (task : Task) :
    process_task env st task = (st, false) ∨
    (process_task env st task = (st, true) ∧
      is_summarized env st task.transcript_path = true ∧
      task.transcript_path ≠ "" ∧ (env.fs task.transcript_path).isSome) ∨
    ((process_task env st task).2 = true ∧
      (process_task env st task).1.summarized =
        setAssoc st.summarized (env.hash task.transcript_path) env.nowTs ∧
      dailyEntries (process_task env st task).1.daily ≤ dailyEntries st.daily + 1 ∧
      task.transcript_path ≠ "" ∧ (env.fs task.transcript_path).isSome) := by
  by_cases h1 : task.transcript_path = ""
  · left; simp [process_task, h1]
  · cases hfs : env.fs task.transcript_path with
    | none => left; simp [process_task, h1, hfs]
    | some tl =>
      by_cases h2 : is_summarized env st task.transcript_path = true
      · right; left
        refine ⟨by simp [process_task, h1, hfs, h2], h2, h1, by simp [hfs]⟩
      · by_cases h3 : count_user_messages tl < env.minMessages
        · have heq : process_task env st task =
              (mark_summarized env st task.transcript_path, true) := by
            simp [process_task, h1, hfs, h2, h3]
          right; right
          rw [heq]
          exact ⟨rfl, rfl, by rw [mark_summarized_daily]; omega, h1, by simp [hfs]⟩
        · by_cases h4 : extract_conversation tl 20000 = ""
          · have heq : process_task env st task =
                (mark_summarized env st task.transcript_path, true) := by
              simp [process_task, h1, hfs, h2, h3, h4]
            right; right
            rw [heq]
            exact ⟨rfl, rfl, by rw [mark_summarized_daily]; omega, h1, by simp [hfs]⟩
          · by_cases h5 : env.summarize (extract_conversation tl 20000) = ""
            · left
              simp [process_task, h1, hfs, h2, h3, h4, h5]
            · by_cases h6 :
                  pyStrip (env.summarize (extract_conversation tl 20000)) = "SKIP"
              · have heq : process_task env st task =
                    (mark_summarized env st task.transcript_path, true) := by
                  simp [process_task, h1, hfs, h2, h3, h4, h5, h6]
                right; right
                rw [heq]
                exact ⟨rfl, rfl, by rw [mark_summarized_daily]; omega, h1, by simp [hfs]⟩
              · have heq : process_task env st task =
                    (mark_summarized env
                      (save_daily env st (env.summarize (extract_conversation tl 20000))
                        task.session_id) task.transcript_path, true) := by
                  simp [process_task, h1, hfs, h2, h3, h4, h5, h6]
                right; right
                rw [heq]
                refine ⟨rfl, ?_, ?_, h1, by simp [hfs]⟩
                · rw [mark_summarized_summarized, save_daily_summarized]
                · rw [mark_summarized_daily]
                  exact dailyEntries_save_daily_le env st _ _

/-! ## Claim C1 (missing source) -/

/-- Claim C1, corrected: for every task whose transcript path is empty or
refers to a file that does not exist at drain time, `process_task` returns
failure and leaves the store completely unchanged — in particular it does
NOT create a dedup marker for the source and produces no Daily Record
entry.  (The claim as stated says a marker is created; the code returns
`False` at line 330-332 without calling `mark_summarized`.) -/
theorem c1_missing_source_no_mark (env : Env) (st : Store) (task : Task)
    (h : task.transcript_path = "" ∨ env.fs task.transcript_path = none) :
    process_task env st task = (st, false) := by
  rcases h with h | h
  · simp [process_task, h]
  · by_cases he : task.transcript_path = ""
    · simp [process_task, he]
    · simp [process_task, he, h]

/-- Claim C1 counterexample: with an empty store and a task whose
transcript does not exist, `process_task` finishes with NO dedup marker for
the source's hash (the claim asserts one exists afterwards), returning
failure. -/
theorem c1_counterexample :
    process_task
      ⟨fun _ => none, fun p => p, fun _ => "", 4, ⟨2025, 10, 6⟩, "12:00", 1759999999⟩
      ⟨[], [], [], [], []⟩ ⟨"/tmp/t.jsonl", "/w", "sess0001", 0⟩ =
      (⟨[], [], [], [], []⟩, false) ∧
    ((process_task
      ⟨fun _ => none, fun p => p, fun _ => "", 4, ⟨2025, 10, 6⟩, "12:00", 1759999999⟩
      ⟨[], [], [], [], []⟩ ⟨"/tmp/t.jsonl", "/w", "sess0001", 0⟩).1.summarized.lookup
        "/tmp/t.jsonl") = none := by
  exact ⟨by decide, by decide⟩

/-- Claim C1 witness: the amended theorem applied at a concrete input. -/
theorem c1_missing_source_no_mark_witness :
    process_task
      ⟨fun _ => none, fun p => p, fun _ => "", 4, ⟨2025, 10, 6⟩, "12:00", 1759999999⟩
      ⟨[], [], [], [], []⟩ ⟨"/tmp/u.jsonl", "/w", "sess0002", 0⟩ =
      (⟨[], [], [], [], []⟩, false) :=
  c1_missing_source_no_mark _ _ _ (Or.inr rfl)

/-! ## Claim C4 (below-threshold sources) -/

/-- Claim C4: for every task whose source exists and whose count of
qualifying entries (lines parsing as JSON objects with type `"user"`) is
strictly below the configured minimum, `process_task` returns success,
leaves the Daily Records unchanged, and a dedup marker for the source
exists afterwards. -/
theorem c4_below_threshold (env : Env) (st : Store) (task : Task) (tl : List PLine)
    (hne : task.transcript_path ≠ "")
    (hfs : env.fs task.transcript_path = some tl)
    (hcnt : count_user_messages tl < env.minMessages) :
    (process_task env st task).2 = true ∧
    (process_task env st task).1.daily = st.daily ∧
    is_summarized env (process_task env st task).1 task.transcript_path = true := by
  by_cases h2 : is_summarized env st task.transcript_path = true
  · have heq : process_task env st task = (st, true) := by
      simp [process_task, hne, hfs, h2]
    rw [heq]
    exact ⟨rfl, rfl, h2⟩
  · have heq : process_task env st task =
        (mark_summarized env st task.transcript_path, true) := by
      simp [process_task, hne, hfs, h2, hcnt]
    rw [heq]
    exact ⟨rfl, mark_summarized_daily env st _, is_summarized_mark env st _⟩

/-- Claim C4 witness: a source with zero qualifying entries under the
default minimum of 4 is marked resolved with no Daily Record entry. -/
theorem c4_below_threshold_witness :
    (process_task
      ⟨fun p => if p = "t.jsonl" then some [] else none, fun p => p, fun _ => "",
        4, ⟨2025, 10, 6⟩, "12:00", 1760000000⟩
      ⟨[], [], [], [], []⟩ ⟨"t.jsonl", "/w", "sess0003", 0⟩).2 = true ∧
    (process_task
      ⟨fun p => if p = "t.jsonl" then some [] else none, fun p => p, fun _ => "",
        4, ⟨2025, 10, 6⟩, "12:00", 1760000000⟩
      ⟨[], [], [], [], []⟩ ⟨"t.jsonl", "/w", "sess0003", 0⟩).1.daily = [] ∧
    is_summarized
      ⟨fun p => if p = "t.jsonl" then some [] else none, fun p => p, fun _ => "",
        4, ⟨2025, 10, 6⟩, "12:00", 1760000000⟩
      (process_task
        ⟨fun p => if p = "t.jsonl" then some [] else none, fun p => p, fun _ => "",
          4, ⟨2025, 10, 6⟩, "12:00", 1760000000⟩
        ⟨[], [], [], [], []⟩ ⟨"t.jsonl", "/w", "sess0003", 0⟩).1 "t.jsonl" = true :=
  c4_below_threshold _ _ _ [] (by decide) rfl (by decide)

/-! ## Claim C5 (SKIP sentinel) -/

/-- Claim C5: for every task whose source exists, is not yet resolved,
meets the qualifying-entry minimum and yields a non-empty conversation,
if the summarizer invocation succeeds returning exactly the sentinel
`SKIP`, then `process_task` appends nothing to the Daily Records, creates
the dedup marker, and returns success. -/
theorem c5_skip_sentinel (env : Env) (st : Store) (task : Task) (tl : List PLine)
    (hne : task.transcript_path ≠ "")
    (hfs : env.fs task.transcript_path = some tl)
    (hm : ¬ is_summarized env st task.transcript_path = true)
    (hcnt : ¬ count_user_messages tl < env.minMessages)
    (hconv : extract_conversation tl 20000 ≠ "")
    (hsum : env.summarize (extract_conversation tl 20000) = "SKIP") :
    process_task env st task = (mark_summarized env st task.transcript_path, true) ∧
    (process_task env st task).1.daily = st.daily ∧
    is_summarized env (process_task env st task).1 task.transcript_path = true := by
  have htrim : pyStrip (env.summarize (extract_conversation tl 20000)) = "SKIP" := by
    rw [hsum]; decide
  have hne2 : env.summarize (extract_conversation tl 20000) ≠ "" := by
    rw [hsum]; decide
  have heq : process_task env st task =
      (mark_summarized env st task.transcript_path, true) := by
    simp [process_task, hne, hfs, hm, hcnt, hconv, hne2, htrim]
  rw [heq]
  exact ⟨rfl, mark_summarized_daily env st _, is_summarized_mark env st _⟩

/-- Claim C5 witness: a four-user-message transcript whose summarizer
returns `SKIP` is marked resolved without any Daily Record entry. -/
theorem c5_skip_sentinel_witness :
    process_task
      ⟨fun p => if p = "s.jsonl" then some (List.replicate 4 (.val (.obj
          [("type", .str "user"), ("message", .obj [("content", .str "hi")])]))) else none,
        fun p => p, fun _ => "SKIP", 4, ⟨2025, 10, 6⟩, "12:00", 1760000001⟩
      ⟨[], [], [], [], []⟩ ⟨"s.jsonl", "/w", "sess0004", 0⟩ =
      (mark_summarized
        ⟨fun p => if p = "s.jsonl" then some (List.replicate 4 (.val (.obj
            [("type", .str "user"), ("message", .obj [("content", .str "hi")])]))) else none,
          fun p => p, fun _ => "SKIP", 4, ⟨2025, 10, 6⟩, "12:00", 1760000001⟩
        ⟨[], [], [], [], []⟩ "s.jsonl", true) :=
  (c5_skip_sentinel _ _ _ _
    (by decide) rfl (by decide) (by decide) (by decide) rfl).1

/-! ## Claim C9 (lock contention) -/

/-- Claim C9: when the exclusion lease is already held by another process,
a drain attempt through `process_queue` exits immediately and leaves the
queue, the Daily Records, the Dedup Ledger and all rollup and maintenance
state exactly as they were. -/
theorem c9_lock_contention (env : Env) (q : List QEntry) (st : Store) :
    process_queue env true q st = (q, st) := by
  simp [process_queue]

/-! ## Claim C2 (dedup across duplicate processing) -/

theorem process_task_daily_le (env : Env) (st : Store) (task : Task) :
    dailyEntries (process_task env st task).1.daily ≤ dailyEntries st.daily + 1 := by
  rcases process_task_outcomes env st task with h | ⟨h, _⟩ | ⟨_, _, h, _⟩
  · rw [h]; exact Nat.le_add_right _ 1
  · rw [h]; exact Nat.le_add_right _ 1
  · exact h

/-- Claim C2: processing the same source twice in sequence appends at most
one entry to the Daily Records; moreover if the first call reports success
(the terminal outcomes: already resolved, missing content, below threshold,
SKIP, or summarized), then a dedup marker for the source exists afterwards
and the second call is a no-op success that changes nothing. -/
theorem c2_process_twice_once (env : Env) (st : Store) (task : Task) :
    dailyEntries (process_task env
      (process_task env st task).1 task).1.daily ≤ dailyEntries st.daily + 1 ∧
    ((process_task env st task).2 = true →
      is_summarized env (process_task env st task).1 task.transcript_path = true ∧
      process_task env (process_task env st task).1 task =
        ((process_task env st task).1, true)) := by
  rcases process_task_outcomes env st task with h | ⟨heq, hm, hne, hfs⟩
    | ⟨ht, hsum, hdle, hne, hfs⟩
  · rw [h]
    exact ⟨process_task_daily_le env st task, fun hc => by simp at hc⟩
  · rw [heq]
    exact ⟨process_task_daily_le env st task, fun _ => ⟨hm, heq⟩⟩
  · obtain ⟨tl, htl⟩ := Option.isSome_iff_exists.mp hfs
    set st1 := (process_task env st task).1 with hst1
    have hmark : is_summarized env st1 task.transcript_path = true := by
      simp [is_summarized, hsum, lookup_setAssoc_self]
    have heq2 : process_task env st1 task = (st1, true) := by
      simp [process_task, hne, htl, hmark]
    exact ⟨by rw [heq2]; exact hdle, fun _ => ⟨hmark, heq2⟩⟩

/-- Claim C2 witness: a below-threshold source processed twice; the second
call observes the marker and is a no-op success. -/
theorem c2_process_twice_once_witness :
    is_summarized
      ⟨fun p => if p = "t.jsonl" then some [] else none, fun p => p, fun _ => "",
        4, ⟨2025, 10, 6⟩, "12:00", 1760000002⟩
      (process_task
        ⟨fun p => if p = "t.jsonl" then some [] else none, fun p => p, fun _ => "",
          4, ⟨2025, 10, 6⟩, "12:00", 1760000002⟩
        ⟨[], [], [], [], []⟩ ⟨"t.jsonl", "/w", "sess0005", 0⟩).1 "t.jsonl" = true ∧
    process_task
      ⟨fun p => if p = "t.jsonl" then some [] else none, fun p => p, fun _ => "",
        4, ⟨2025, 10, 6⟩, "12:00", 1760000002⟩
      (process_task
        ⟨fun p => if p = "t.jsonl" then some [] else none, fun p => p, fun _ => "",
          4, ⟨2025, 10, 6⟩, "12:00", 1760000002⟩
        ⟨[], [], [], [], []⟩ ⟨"t.jsonl", "/w", "sess0005", 0⟩).1
      ⟨"t.jsonl", "/w", "sess0005", 0⟩ =
      ((process_task
        ⟨fun p => if p = "t.jsonl" then some [] else none, fun p => p, fun _ => "",
          4, ⟨2025, 10, 6⟩, "12:00", 1760000002⟩
        ⟨[], [], [], [], []⟩ ⟨"t.jsonl", "/w", "sess0005", 0⟩).1, true) :=
  (c2_process_twice_once _ _ _).2 (by decide)

/-! ## Drain-loop behaviour -/

theorem exists_entry_of_pending_mem {q : List QEntry} {n : String} {t : Task}
    (h : (n, t) ∈ get_pending_tasks q) : ∃ e ∈ q, qsel e = some (n, t) := by
  rw [get_pending_tasks] at h
  obtain ⟨e, he, hsel⟩ := List.mem_filterMap.mp h
  exact ⟨e, (List.perm_insertionSort _ q).subset he, hsel⟩

theorem drainLoop_nil {env : Env} {q : List QEntry} {st : Store}
    (h : get_pending_tasks q = []) : drainLoop env q st = (q, st) := by
  rw [drainLoop]
  split
  · rfl
  · rename_i n t rest heq
    rw [h] at heq
    cases heq

theorem drainLoop_cons {env : Env} {q : List QEntry} {st : Store} {n : String}
    {t : Task} {rest : List (String × Task)} (h : get_pending_tasks q = (n, t) :: rest) :
    drainLoop env q st = drainLoop env (remove_task q n) (process_task env st t).1 := by
  rw [drainLoop]
  split
  · rename_i heq
    rw [h] at heq
    cases heq
  · rename_i n1 t1 rest1 heq
    rw [h] at heq
    injection heq with heq1 heq2
    injection heq1 with heq3 heq4
    subst heq3
    subst heq4
    rfl

theorem drainLoop_subset_and_empty (env : Env) :
    ∀ (N : Nat) (q : List QEntry) (st : Store), (get_pending_tasks q).length ≤ N →
      (∀ e ∈ (drainLoop env q st).1, e ∈ q) ∧
      get_pending_tasks (drainLoop env q st).1 = [] := by
  intro N
  induction N with
  | zero =>
    intro q st hN
    have h : get_pending_tasks q = [] := List.length_eq_zero.mp (Nat.le_zero.mp hN)
    rw [drainLoop_nil h]
    exact ⟨fun e he => he, h⟩
  | succ N ih =>
    intro q st hN
    cases h : get_pending_tasks q with
    | nil =>
      rw [drainLoop_nil h]
      exact ⟨fun e he => he, h⟩
    | cons p rest =>
      obtain ⟨n, t⟩ := p
      rw [drainLoop_cons h]
      have hdec := drain_decrease h
      have hle : (get_pending_tasks (remove_task q n)).length ≤ N := by omega
      obtain ⟨hsub, hemp⟩ := ih (remove_task q n) (process_task env st t).1 hle
      refine ⟨fun e he => ?_, hemp⟩
      exact (List.mem_filter.mp (hsub e he)).1

/-- After a drain, nothing is pending any more: the loop terminates with an
empty (parsable) queue. -/
theorem drainLoop_pending_empty (env : Env) (q : List QEntry) (st : Store) :
    get_pending_tasks (drainLoop env q st).1 = [] :=
  (drainLoop_subset_and_empty env (get_pending_tasks q).length q st (le_refl _)).2

/-- The drain only ever removes files; everything in the final queue was
already there. -/
theorem drainLoop_result_subset (env : Env) (q : List QEntry) (st : Store) :
    ∀ e ∈ (drainLoop env q st).1, e ∈ q :=
  (drainLoop_subset_and_empty env (get_pending_tasks q).length q st (le_refl _)).1

/-- Queue files that `get_pending_tasks` skips (`qsel` yields nothing) are
never touched by the drain loop. -/
theorem drainLoop_preserves_skipped (env : Env) :
    ∀ (N : Nat) (q : List QEntry) (st : Store), (get_pending_tasks q).length ≤ N →
      (q.map QEntry.name).Nodup →
      ∀ e ∈ q, qsel e = none → e ∈ (drainLoop env q st).1 := by
  intro N
  induction N with
  | zero =>
    intro q st hN _ e he _
    have h : get_pending_tasks q = [] := List.length_eq_zero.mp (Nat.le_zero.mp hN)
    rw [drainLoop_nil h]
    exact he
  | succ N ih =>
    intro q st hN hnd e he hbad
    cases h : get_pending_tasks q with
    | nil =>
      rw [drainLoop_nil h]
      exact he
    | cons p rest =>
      obtain ⟨n, t⟩ := p
      rw [drainLoop_cons h]
      obtain ⟨e2, he2, hsel2⟩ := exists_entry_of_pending_mem
        (by rw [h]; exact List.mem_cons_self _ _)
      have hne : e.name ≠ n := by
        intro hcontra
        have : e = e2 := List.inj_on_of_nodup_map hnd he he2
          (by rw [hcontra, qsel_name hsel2])
        rw [this, hsel2] at hbad
        cases hbad
      have hmem : e ∈ remove_task q n :=
        List.mem_filter.mpr ⟨he, by simp [hne]⟩
      have hdec := drain_decrease h
      have hle : (get_pending_tasks (remove_task q n)).length ≤ N := by omega
      have hnd2 : ((remove_task q n).map QEntry.name).Nodup :=
        ((List.filter_sublist q).map QEntry.name).nodup hnd
      exact ih (remove_task q n) (process_task env st t).1 hle hnd2 e hmem hbad

/-! ## Claim C6 (summarizer failure) -/

/-- Claim C6: for every task whose source exists, is unresolved, meets the
minimum and yields a conversation, a failing summarizer invocation
(`summarize_with_claude` returns `""` on non-zero exit, missing command,
exception or timeout) leaves the store untouched — no Daily Record entry
and no dedup marker — and returns failure; yet when such a task heads the
pending queue, the drain loop still removes its file, so no file with its
name survives the drain. -/
theorem c6_summarizer_failure (env : Env) (st : Store) (task : Task) (tl : List PLine)
    (hne : task.transcript_path ≠ "")
    (hfs : env.fs task.transcript_path = some tl)
    (hm : ¬ is_summarized env st task.transcript_path = true)
    (hcnt : ¬ count_user_messages tl < env.minMessages)
    (hconv : extract_conversation tl 20000 ≠ "")
    (hfail : env.summarize (extract_conversation tl 20000) = "") :
    process_task env st task = (st, false) ∧
    ∀ (q : List QEntry) (rest : List (String × Task)) (n : String),
      get_pending_tasks q = (n, task) :: rest →
      ∀ e ∈ (drainLoop env q st).1, e.name ≠ n := by
  have heq : process_task env st task = (st, false) := by
    simp [process_task, hne, hfs, hm, hcnt, hconv, hfail]
  refine ⟨heq, fun q rest n hq e he => ?_⟩
  rw [drainLoop_cons hq] at he
  have hmem := drainLoop_result_subset env (remove_task q n)
    (process_task env st task).1 e he
  have := (List.mem_filter.mp hmem).2
  simpa using this

/-- Claim C6 witness: the failure branch at a concrete four-message
transcript with a summarizer that returns nothing. -/
theorem c6_summarizer_failure_witness :
    process_task
      ⟨fun p => if p = "f.jsonl" then some (List.replicate 4 (.val (.obj
          [("type", .str "user"), ("message", .obj [("content", .str "hi")])]))) else none,
        fun p => p, fun _ => "", 4, ⟨2025, 10, 6⟩, "12:00", 1760000003⟩
      ⟨[], [], [], [], []⟩ ⟨"f.jsonl", "/w", "sess0006", 0⟩ =
      (⟨[], [], [], [], []⟩, false) :=
  (c6_summarizer_failure _ _ _ _
    (by decide) rfl (by decide) (by decide) (by decide) rfl).1

/-! ## Claim C10 (unparsable queue files and drain termination) -/

theorem qsel_none_of_bad {e : QEntry}
    (h : strEndsWith e.name ".json" = false ∨ e.content = .notJson) : qsel e = none := by
  rcases h with h | h
  · simp [qsel, h]
  · by_cases hend : strEndsWith e.name ".json" = true
    · simp [qsel, hend, h]
    · simp [qsel, hend]

/-- Claim C10: a queue file that does not end in `.json` or whose content
is unparsable JSON is invisible to `get_pending_tasks` and survives the
drain loop untouched; the drain terminates with no pending task left (each
iteration removed the oldest pending one); and such residue is removed by
the 7-day queue cleanup once old enough. -/
theorem c10_unparsed_skipped_drain_terminates (env : Env) (q : List QEntry) (st : Store)
    (hnd : (q.map QEntry.name).Nodup) :
    (∀ e ∈ q, (strEndsWith e.name ".json" = false ∨ e.content = .notJson) →
      (∀ t : Task, (e.name, t) ∉ get_pending_tasks q) ∧
      e ∈ (drainLoop env q st).1) ∧
    get_pending_tasks (drainLoop env q st).1 = [] ∧
    (∀ e ∈ q, e.mtime < env.nowTs - 7 * 86400 → e ∉ cleanup_queue env.nowTs q) := by
  refine ⟨fun e he hbad => ⟨?_, ?_⟩, drainLoop_pending_empty env q st, ?_⟩
  · intro t hmem
    obtain ⟨e2, he2, hsel2⟩ := exists_entry_of_pending_mem hmem
    have : e2 = e := List.inj_on_of_nodup_map hnd he2 he (qsel_name hsel2)
    rw [this, qsel_none_of_bad hbad] at hsel2
    cases hsel2
  · exact drainLoop_preserves_skipped env (get_pending_tasks q).length q st
      (le_refl _) hnd e he (qsel_none_of_bad hbad)
  · intro e he hold hcontra
    have hkeep := (List.mem_filter.mp hcontra).2
    simp only [Bool.not_eq_eq_eq_not, Bool.not_true, decide_eq_false_iff_not] at hkeep
    exact hkeep hold

/-- Claim C10 witness: with one stray text file, one corrupt `.json` file
and one well-formed task, the drain leaves both stray files in place and no
pending tasks; the year-old stray is removed by the cleanup. -/
theorem c10_unparsed_skipped_witness :
    (⟨"readme.txt", 100, .notDict⟩ : QEntry) ∈
      (drainLoop
        ⟨fun _ => none, fun p => p, fun _ => "", 4, ⟨2025, 10, 6⟩, "12:00", 1760000004⟩
        [⟨"readme.txt", 100, .notDict⟩, ⟨"150-x.json", 150, .notJson⟩,
          ⟨"200-y.json", 200, .task ⟨"t.jsonl", "/w", "sess0007", 200⟩⟩]
        ⟨[], [], [], [], []⟩).1 ∧
    get_pending_tasks
      (drainLoop
        ⟨fun _ => none, fun p => p, fun _ => "", 4, ⟨2025, 10, 6⟩, "12:00", 1760000004⟩
        [⟨"readme.txt", 100, .notDict⟩, ⟨"150-x.json", 150, .notJson⟩,
          ⟨"200-y.json", 200, .task ⟨"t.jsonl", "/w", "sess0007", 200⟩⟩]
        ⟨[], [], [], [], []⟩).1 = [] ∧
    (⟨"150-x.json", 150, .notJson⟩ : QEntry) ∉
      cleanup_queue 1760000004
        [⟨"readme.txt", 100, .notDict⟩, ⟨"150-x.json", 150, .notJson⟩,
          ⟨"200-y.json", 200, .task ⟨"t.jsonl", "/w", "sess0007", 200⟩⟩] := by
  have H := c10_unparsed_skipped_drain_terminates
    ⟨fun _ => none, fun p => p, fun _ => "", 4, ⟨2025, 10, 6⟩, "12:00", 1760000004⟩
    [⟨"readme.txt", 100, .notDict⟩, ⟨"150-x.json", 150, .notJson⟩,
      ⟨"200-y.json", 200, .task ⟨"t.jsonl", "/w", "sess0007", 200⟩⟩]
    ⟨[], [], [], [], []⟩ (by decide)
  exact ⟨(H.1 _ (by decide) (by decide)).2, H.2.1,
    H.2.2 _ (by decide) (by decide)⟩

/-! ## The computable name order agrees with the string order -/

theorem charListLe_iff : ∀ xs ys : List Char,
    charListLe xs ys = true ↔ ¬ List.Lex (· < ·) ys xs
  | [], ys => by
    simp [charListLe, List.Lex.not_nil_right]
  | x :: xs, [] => by
    simp only [charListLe, Bool.false_eq_true, false_iff, not_not]
    exact List.Lex.nil
  | x :: xs, y :: ys => by
    by_cases h1 : x.toNat < y.toNat
    · have hxy : x < y := h1
      simp only [charListLe, if_pos h1, true_iff]
      intro hlex
      cases hlex with
      | rel h => exact absurd hxy (asymm h)
      | cons h => exact absurd rfl (ne_of_lt hxy)
    · by_cases h2 : y.toNat < x.toNat
      · have hyx : y < x := h2
        simp only [charListLe, if_neg h1, if_pos h2, Bool.false_eq_true, false_iff, not_not]
        exact List.Lex.rel hyx
      · have hxy : x = y := by
          have : x.toNat = y.toNat := by omega
          exact Char.eq_of_val_eq (UInt32.toNat.inj this)
        subst hxy
        simp only [charListLe, if_neg h1, if_neg h2]
        rw [charListLe_iff xs ys]
        constructor
        · intro hn hlex
          exact hn (List.Lex.cons_iff.mp hlex)
        · intro hn hlex
          exact hn (List.Lex.cons hlex)

theorem strLe_iff (a b : String) : strLe a b = true ↔ a ≤ b := by
  rw [strLe, charListLe_iff]
  constructor
  · intro h
    rw [← not_lt]
    intro hlt
    exact h (String.lt_iff_toList_lt.mp hlt)
  · intro h hlex
    rw [← not_lt] at h
    exact h (String.lt_iff_toList_lt.mpr hlex)

theorem strLe_total (a b : String) : strLe a b = true ∨ strLe b a = true := by
  rw [strLe_iff, strLe_iff]
  exact le_total a b

theorem strLe_trans {a b c : String} (h1 : strLe a b = true) (h2 : strLe b c = true) :
    strLe a c = true := by
  rw [strLe_iff] at h1 h2 ⊢
  exact le_trans h1 h2

/-! ## Claim C7 (queue FIFO order) -/

theorem qsel_of_task {e : QEntry} {t : Task} {b : String × Task}
    (hc : e.content = .task t) (hb : qsel e = some b) : b = (e.name, t) := by
  unfold qsel at hb
  rw [hc] at hb
  by_cases hend : strEndsWith e.name ".json" = true
  · rw [if_pos hend] at hb
    exact (Option.some_inj.mp hb).symm
  · rw [if_neg hend] at hb
    cases hb

/-- Claim C7 counterexample: with enqueue timestamps of different decimal
width (`999999999`, then one second later `1000000000`), the later task's
filename sorts lexicographically BEFORE the earlier one, so
`get_pending_tasks` returns the tasks newest-first, not oldest-first. -/
theorem c7_counterexample :
    999999999 < 1000000000 ∧
    get_pending_tasks
      [⟨task_filename 999999999 "aaaaaaaa", 999999999,
          .task ⟨"p1", "/w", "aaaaaaaa", 999999999⟩⟩,
        ⟨task_filename 1000000000 "bbbbbbbb", 1000000000,
          .task ⟨"p2", "/w", "bbbbbbbb", 1000000000⟩⟩] =
      [(task_filename 1000000000 "bbbbbbbb", ⟨"p2", "/w", "bbbbbbbb", 1000000000⟩),
        (task_filename 999999999 "aaaaaaaa", ⟨"p1", "/w", "aaaaaaaa", 999999999⟩)] :=
  ⟨by omega, by decide⟩

/-- Claim C7, amended: when all enqueue timestamps render with the same
number of decimal digits (true for every real timestamp from 2001-09-09
to 2286-11-20), the filename built from the integer timestamp and the
session prefix sorts lexicographically in timestamp order, and
`get_pending_tasks` returns the queued tasks oldest-first. -/
theorem c7_fifo_same_width (L : Nat) (q : List QEntry)
    (hshape : ∀ e ∈ q, ∃ t : Task, e.content = .task t ∧
      e.name = task_filename t.timestamp t.session_id ∧
      (Nat.repr t.timestamp).length = L) :
    (get_pending_tasks q).Pairwise fun a b => a.2.timestamp ≤ b.2.timestamp := by
  have hsorted : (q.insertionSort fun a b => strLe a.name b.name = true).Pairwise
      fun a b => strLe a.name b.name = true := by
    haveI : IsTotal QEntry fun a b => strLe a.name b.name = true :=
      ⟨fun a b => strLe_total a.name b.name⟩
    haveI : IsTrans QEntry fun a b => strLe a.name b.name = true :=
      ⟨fun _ _ _ => strLe_trans⟩
    exact List.sorted_insertionSort _ q
  have hshape2 : ∀ e ∈ (q.insertionSort fun a b => strLe a.name b.name = true),
      ∃ t : Task, e.content = .task t ∧
        e.name = task_filename t.timestamp t.session_id ∧
        (Nat.repr t.timestamp).length = L :=
    fun e he => hshape e ((List.perm_insertionSort _ q).subset he)
  rw [get_pending_tasks]
  rw [List.Pairwise.and_mem] at hsorted
  refine List.Pairwise.filterMap qsel ?_ hsorted
  rintro a a2 ⟨ha, ha2, hle⟩ b hb b2 hb2
  obtain ⟨t, hct, hname, hwidth⟩ := hshape2 a ha
  obtain ⟨t2, hct2, hname2, hwidth2⟩ := hshape2 a2 ha2
  rw [qsel_of_task hct hb, qsel_of_task hct2 hb2]
  show t.timestamp ≤ t2.timestamp
  by_contra hgt
  push_neg at hgt
  have hlt : a2.name < a.name := by
    rw [hname, hname2, task_filename, task_filename,
      String.append_assoc, String.append_assoc,
      String.append_assoc, String.append_assoc]
    exact repr_append_lt _ _ hgt (by rw [hwidth2, hwidth])
  rw [strLe_iff] at hle
  exact absurd hle (not_le.mpr hlt)

/-- Claim C7 witness: two same-width timestamps enqueued out of order are
returned oldest-first. -/
theorem c7_fifo_same_width_witness :
    (get_pending_tasks
      [⟨task_filename 101 "s2s2s2s2", 101, .task ⟨"p2", "/w", "s2s2s2s2", 101⟩⟩,
        ⟨task_filename 100 "s1s1s1s1", 100, .task ⟨"p1", "/w", "s1s1s1s1", 100⟩⟩]).Pairwise
      (fun a b => a.2.timestamp ≤ b.2.timestamp) :=
  c7_fifo_same_width 3 _ (by
    intro e he
    simp only [List.mem_cons, List.not_mem_nil, or_false] at he
    rcases he with rfl | rfl
    · exact ⟨⟨"p2", "/w", "s2s2s2s2", 101⟩, rfl, rfl, by decide⟩
    · exact ⟨⟨"p1", "/w", "s1s1s1s1", 100⟩, rfl, rfl, by decide⟩)

/-! ## Claim C8 (monthly archive) -/

theorem lookup_moveWeeklies_notin (mdir : String) :
    ∀ (files : List (String × String)) (monthly : List ((String × String) × String))
      (k : String × String), (∀ p ∈ files, (mdir, p.1) ≠ k) →
      (moveWeeklies mdir files monthly).lookup k = monthly.lookup k := by
  intro files
  induction files with
  | nil => intro monthly k _; rfl
  | cons p rest ih =>
    intro monthly k hk
    obtain ⟨f, c⟩ := p
    show (moveWeeklies mdir rest (setAssoc monthly (mdir, f) c)).lookup k = monthly.lookup k
    rw [ih _ k fun p hp => hk p (List.mem_cons_of_mem _ hp)]
    exact lookup_setAssoc_ne _ _ _ _ fun hkk =>
      hk (f, c) (List.mem_cons_self _ _) hkk.symm

theorem lookup_moveWeeklies_self (mdir : String) :
    ∀ (files : List (String × String)) (monthly : List ((String × String) × String))
      (f c : String), (f, c) ∈ files → (files.map Prod.fst).Nodup →
      (moveWeeklies mdir files monthly).lookup (mdir, f) = some c := by
  intro files
  induction files with
  | nil => intro monthly f c hmem; cases hmem
  | cons p rest ih =>
    intro monthly f c hmem hnd
    obtain ⟨g, cg⟩ := p
    rw [List.map_cons, List.nodup_cons] at hnd
    rcases List.mem_cons.mp hmem with heq | hmem2
    · injection heq with he1 he2
      subst he1
      subst he2
      show (moveWeeklies mdir rest (setAssoc monthly (mdir, f) c)).lookup (mdir, f) = some c
      rw [lookup_moveWeeklies_notin mdir rest _ _ fun p hp hcon => by
        have hp1 : p.1 = f := congrArg Prod.snd hcon
        have hpm : p.1 ∈ List.map Prod.fst rest := List.mem_map_of_mem Prod.fst hp
        exact hnd.1 (hp1 ▸ hpm)]
      exact lookup_setAssoc_self _ _ _
    · exact ih _ f c hmem2 hnd.2

/-- Claim C8: the monthly archive runs only within the first 7 days of a
month (otherwise it changes nothing); when it runs, every weekly-area file
whose week-start date falls in the just-concluded month is moved, not
copied: afterwards it is gone from the weekly area and present in that
month's archive directory with byte-identical content. -/
theorem c8_archive_monthly (today : Date) (st : Store)
    (hnd : (st.weekly.map Prod.fst).Nodup) :
    (7 < today.day → archive_monthly today st = st) ∧
    (today.day ≤ 7 → ∀ f c, (f, c) ∈ st.weekly →
      isArchTarget (lastMonthStr today) f = true →
      (∀ c2, (f, c2) ∉ (archive_monthly today st).weekly) ∧
      (archive_monthly today st).monthly.lookup (lastMonthStr today, f) = some c) := by
  constructor
  · intro h
    simp [archive_monthly, h]
  · intro h f c hmem htarget
    have harch : archive_monthly today st =
        { st with
          weekly := st.weekly.filter fun p => !(isArchTarget (lastMonthStr today) p.1),
          monthly := moveWeeklies (lastMonthStr today)
            (st.weekly.filter fun p => isArchTarget (lastMonthStr today) p.1)
            st.monthly } := by
      rw [archive_monthly, if_neg (by omega)]
    rw [harch]
    constructor
    · intro c2 hc2
      have := (List.mem_filter.mp hc2).2
      rw [htarget] at this
      cases this
    · have hmoved : (f, c) ∈ st.weekly.filter
          fun p => isArchTarget (lastMonthStr today) p.1 :=
        List.mem_filter.mpr ⟨hmem, htarget⟩
      have hndm : ((st.weekly.filter fun p =>
          isArchTarget (lastMonthStr today) p.1).map Prod.fst).Nodup :=
        ((List.filter_sublist st.weekly).map Prod.fst).nodup hnd
      exact lookup_moveWeeklies_self _ _ _ _ _ hmoved hndm

/-- Claim C8 witness: on 2025-02-03 the weekly record `week-2025-01-06.md`
is moved into the January 2025 archive with its content intact. -/
theorem c8_archive_monthly_witness :
    ("week-2025-01-06.md", "# wk\n") ∉
      (archive_monthly ⟨2025, 2, 3⟩
        ⟨[], [], [("week-2025-01-06.md", "# wk\n")], [], []⟩).weekly ∧
    (archive_monthly ⟨2025, 2, 3⟩
      ⟨[], [], [("week-2025-01-06.md", "# wk\n")], [], []⟩).monthly.lookup
        (lastMonthStr ⟨2025, 2, 3⟩, "week-2025-01-06.md") = some "# wk\n" := by
  have H := (c8_archive_monthly ⟨2025, 2, 3⟩
    ⟨[], [], [("week-2025-01-06.md", "# wk\n")], [], []⟩ (by decide)).2
    (by decide) "week-2025-01-06.md" "# wk\n" (by decide) (by decide)
  exact ⟨H.1 "# wk\n", H.2⟩

/-! ## Zero-padded decimal fields of ISO dates -/

theorem decDigits_length_lt10 {n : Nat} (h : n < 10) : (decDigits n).length = 1 := by
  rw [decDigits, if_pos h]
  rfl

theorem decDigits_length_ge10 {n : Nat} (h : 10 ≤ n) :
    (decDigits n).length = (decDigits (n / 10)).length + 1 := by
  rw [decDigits, if_neg (by omega)]
  simp

theorem repr_data_eq (n : Nat) : (Nat.repr n).data = decDigits n := repr_data n

theorem pad2_spec {n : Nat} (h : n < 100) :
    (pad2 n).data.length = 2 ∧ (∀ c ∈ (pad2 n).data, isDig c = true) ∧
      valOf (pad2 n).data = n := by
  by_cases h10 : n < 10
  · rw [pad2, if_pos h10]
    rw [show ("0" ++ Nat.repr n).data = '0' :: (Nat.repr n).data from rfl, repr_data]
    refine ⟨by simp [decDigits_length_lt10 h10], ?_, ?_⟩
    · intro c hc
      rcases List.mem_cons.mp hc with rfl | hc2
      · decide
      · exact decDigits_digits n c hc2
    · show digVal '0' * 10 ^ (decDigits n).length + valOf (decDigits n) = n
      rw [valOf_decDigits]
      simp [digVal]
  · rw [pad2, if_neg h10, repr_data]
    have hlen : (decDigits n).length = 2 := by
      rw [decDigits_length_ge10 (by omega),
        decDigits_length_lt10 (by omega : n / 10 < 10)]
    exact ⟨hlen, decDigits_digits n, valOf_decDigits n⟩

theorem pad4_spec {n : Nat} (h : n < 10000) :
    (pad4 n).data.length = 4 ∧ (∀ c ∈ (pad4 n).data, isDig c = true) ∧
      valOf (pad4 n).data = n := by
  by_cases h10 : n < 10
  · rw [pad4, if_pos h10]
    rw [show ("000" ++ Nat.repr n).data = '0' :: '0' :: '0' :: (Nat.repr n).data from rfl,
      repr_data]
    refine ⟨by simp [decDigits_length_lt10 h10], ?_, ?_⟩
    · intro c hc
      rcases List.mem_cons.mp hc with rfl | hc
      · decide
      rcases List.mem_cons.mp hc with rfl | hc
      · decide
      rcases List.mem_cons.mp hc with rfl | hc
      · decide
      exact decDigits_digits n c hc
    · show digVal '0' * 10 ^ ('0' :: '0' :: (decDigits n)).length +
        (digVal '0' * 10 ^ ('0' :: (decDigits n)).length +
          (digVal '0' * 10 ^ (decDigits n).length + valOf (decDigits n))) = n
      rw [valOf_decDigits]
      simp [digVal]
  · by_cases h100 : n < 100
    · rw [pad4, if_neg h10, if_pos h100]
      rw [show ("00" ++ Nat.repr n).data = '0' :: '0' :: (Nat.repr n).data from rfl,
        repr_data]
      have hlen : (decDigits n).length = 2 := by
        rw [decDigits_length_ge10 (by omega),
          decDigits_length_lt10 (by omega : n / 10 < 10)]
      refine ⟨by simp [hlen], ?_, ?_⟩
      · intro c hc
        rcases List.mem_cons.mp hc with rfl | hc
        · decide
        rcases List.mem_cons.mp hc with rfl | hc
        · decide
        exact decDigits_digits n c hc
      · show digVal '0' * 10 ^ ('0' :: (decDigits n)).length +
          (digVal '0' * 10 ^ (decDigits n).length + valOf (decDigits n)) = n
        rw [valOf_decDigits]
        simp [digVal]
    · by_cases h1000 : n < 1000
      · rw [pad4, if_neg h10, if_neg h100, if_pos h1000]
        rw [show ("0" ++ Nat.repr n).data = '0' :: (Nat.repr n).data from rfl, repr_data]
        have hlen : (decDigits n).length = 3 := by
          rw [decDigits_length_ge10 (by omega),
            decDigits_length_ge10 (by omega : 10 ≤ n / 10),
            decDigits_length_lt10 (by omega : n / 10 / 10 < 10)]
        refine ⟨by simp [hlen], ?_, ?_⟩
        · intro c hc
          rcases List.mem_cons.mp hc with rfl | hc
          · decide
          exact decDigits_digits n c hc
        · show digVal '0' * 10 ^ (decDigits n).length + valOf (decDigits n) = n
          rw [valOf_decDigits]
          simp [digVal]
      · rw [pad4, if_neg h10, if_neg h100, if_neg h1000, repr_data]
        have hlen : (decDigits n).length = 4 := by
          rw [decDigits_length_ge10 (by omega),
            decDigits_length_ge10 (by omega : 10 ≤ n / 10),
            decDigits_length_ge10 (by omega : 10 ≤ n / 10 / 10),
            decDigits_length_lt10 (by omega : n / 10 / 10 / 10 < 10)]
        exact ⟨hlen, decDigits_digits n, valOf_decDigits n⟩

/-- The characters of `date.isoformat()` split into the three zero-padded
decimal fields. -/
theorem iso_data (d : Date) :
    d.iso.data =
      (pad4 d.year).data ++
        ('-' :: ((pad2 d.month).data ++ ('-' :: (pad2 d.day).data))) := by
  show (pad4 d.year ++ "-" ++ pad2 d.month ++ "-" ++ pad2 d.day).data = _
  rw [String.data_append, String.data_append, String.data_append, String.data_append]
  simp [List.append_assoc]

/-- Strictly earlier dates give strictly smaller ISO strings, whatever
follows them. -/
theorem iso_append_lt {a b : Date} (u v : String)
    (ha4 : a.year < 10000) (ham : a.month < 100) (had : a.day < 100)
    (hb4 : b.year < 10000) (hbm : b.month < 100) (hbd : b.day < 100)
    (hlt : a.year < b.year ∨ (a.year = b.year ∧ (a.month < b.month ∨
      (a.month = b.month ∧ a.day < b.day)))) :
    a.iso ++ u < b.iso ++ v := by
  obtain ⟨hYal, hYad, hYav⟩ := pad4_spec ha4
  obtain ⟨hMal, hMad, hMav⟩ := pad2_spec ham
  obtain ⟨hDal, hDad, hDav⟩ := pad2_spec had
  obtain ⟨hYbl, hYbd, hYbv⟩ := pad4_spec hb4
  obtain ⟨hMbl, hMbd, hMbv⟩ := pad2_spec hbm
  obtain ⟨hDbl, hDbd, hDbv⟩ := pad2_spec hbd
  rw [String.lt_iff_toList_lt]
  show (a.iso ++ u).data < (b.iso ++ v).data
  rw [String.data_append, String.data_append, iso_data, iso_data]
  simp only [List.cons_append, List.append_assoc]
  rcases hlt with hy | ⟨hy, hrest⟩
  · exact digitList_lt_of_valOf_lt _ _ _ _ (by rw [hYal, hYbl]) hYad hYbd
      (by rw [hYav, hYbv]; exact hy)
  · have hYeq : (pad4 a.year).data = (pad4 b.year).data :=
      digitList_eq_of_valOf_eq _ _ (by rw [hYal, hYbl]) hYad hYbd
        (by rw [hYav, hYbv, hy])
    rw [hYeq]
    apply lex_append_left
    apply List.Lex.cons
    rcases hrest with hm | ⟨hm, hd⟩
    · exact digitList_lt_of_valOf_lt _ _ _ _ (by rw [hMal, hMbl]) hMad hMbd
        (by rw [hMav, hMbv]; exact hm)
    · have hMeq : (pad2 a.month).data = (pad2 b.month).data :=
        digitList_eq_of_valOf_eq _ _ (by rw [hMal, hMbl]) hMad hMbd
          (by rw [hMav, hMbv, hm])
      rw [hMeq]
      apply lex_append_left
      apply List.Lex.cons
      exact digitList_lt_of_valOf_lt _ _ _ _ (by rw [hDal, hDbl]) hDad hDbd
        (by rw [hDav, hDbv]; exact hd)

theorem daysInMonth_le (y m : Nat) : daysInMonth y m ≤ 31 := by
  unfold daysInMonth
  split_ifs <;> omega

/-- A successful `fromisoformat` parse pins down everything about the
string: it is exactly the `isoformat` of the parsed date, whose fields obey
the calendar bounds. -/
theorem fromisoformat_spec {s : String} {d : Date} (h : fromisoformat s = some d) :
    s = d.iso ∧ 1 ≤ d.year ∧ d.year < 10000 ∧
      1 ≤ d.month ∧ d.month ≤ 12 ∧ 1 ≤ d.day ∧ d.day ≤ 31 := by
  unfold fromisoformat at h
  split at h
  case h_2 => cases h
  case h_1 y1 y2 y3 y4 h1 m1 m2 h2 d1 d2 heq =>
    split at h
    case isFalse => cases h
    case isTrue hdig =>
      dsimp only at h
      split at h
      case isFalse => cases h
      case isTrue hrange =>
        injection h with h
        subst h
        simp only [Bool.and_eq_true, decide_eq_true_eq] at hdig hrange
        obtain ⟨⟨⟨⟨⟨⟨⟨⟨⟨hy1, hy2⟩, hy3⟩, hy4⟩, hh1⟩, hm1⟩, hm2⟩, hh2⟩, hd1⟩, hd2⟩ := hdig
        obtain ⟨⟨⟨⟨hy, hm⟩, hm12⟩, hd⟩, hdm⟩ := hrange
        have hb1 := digVal_le_9 hy1
        have hb2 := digVal_le_9 hy2
        have hb3 := digVal_le_9 hy3
        have hb4 := digVal_le_9 hy4
        have hbm1 := digVal_le_9 hm1
        have hbm2 := digVal_le_9 hm2
        have hbd1 := digVal_le_9 hd1
        have hbd2 := digVal_le_9 hd2
        have hdm31 := daysInMonth_le
          (((digVal y1 * 10 + digVal y2) * 10 + digVal y3) * 10 + digVal y4)
          (digVal m1 * 10 + digVal m2)
        refine ⟨?_, by dsimp only; omega, by dsimp only; omega, by dsimp only; omega,
          by dsimp only; omega, by dsimp only; omega, by dsimp only; omega⟩
        apply String.ext
        rw [iso_data, heq]
        obtain ⟨hYl, hYd, hYv⟩ := pad4_spec
          (show ((digVal y1 * 10 + digVal y2) * 10 + digVal y3) * 10 + digVal y4
              < 10000 by omega)
        obtain ⟨hMl, hMd, hMv⟩ := pad2_spec
          (show digVal m1 * 10 + digVal m2 < 100 by omega)
        obtain ⟨hDl, hDd, hDv⟩ := pad2_spec
          (show digVal d1 * 10 + digVal d2 < 100 by omega)
        have hY : [y1, y2, y3, y4] =
            (pad4 (((digVal y1 * 10 + digVal y2) * 10 + digVal y3) * 10
              + digVal y4)).data := by
          apply digitList_eq_of_valOf_eq _ _ (by rw [hYl]; rfl) ?_ hYd
          · rw [hYv]
            show digVal y1 * 10 ^ 3 + (digVal y2 * 10 ^ 2 +
              (digVal y3 * 10 ^ 1 + (digVal y4 * 10 ^ 0 + 0))) = _
            ring
          · intro c hc
            simp only [List.mem_cons, List.not_mem_nil, or_false] at hc
            rcases hc with rfl | rfl | rfl | rfl
            exacts [hy1, hy2, hy3, hy4]
        have hM : [m1, m2] = (pad2 (digVal m1 * 10 + digVal m2)).data := by
          apply digitList_eq_of_valOf_eq _ _ (by rw [hMl]; rfl) ?_ hMd
          · rw [hMv]
            show digVal m1 * 10 ^ 1 + (digVal m2 * 10 ^ 0 + 0) = _
            ring
          · intro c hc
            simp only [List.mem_cons, List.not_mem_nil, or_false] at hc
            rcases hc with rfl | rfl
            exacts [hm1, hm2]
        have hD : [d1, d2] = (pad2 (digVal d1 * 10 + digVal d2)).data := by
          apply digitList_eq_of_valOf_eq _ _ (by rw [hDl]; rfl) ?_ hDd
          · rw [hDv]
            show digVal d1 * 10 ^ 1 + (digVal d2 * 10 ^ 0 + 0) = _
            ring
          · intro c hc
            simp only [List.mem_cons, List.not_mem_nil, or_false] at hc
            rcases hc with rfl | rfl
            exacts [hd1, hd2]
        rw [← hY, ← hM, ← hD, hh1, hh2]
        rfl

/-! ## Claim C3 (weekly merge) -/

theorem weekSel_inv {lm ls : Date} {f b : String} (hb : weekSel lm ls f = some b) :
    b = f ∧ ∃ d, fromisoformat (strReplace f ".md" "") = some d ∧
      Date.le lm d = true ∧ Date.le d ls = true := by
  unfold weekSel at hb
  split at hb
  · split at hb
    · rename_i d hd
      split at hb
      · rename_i hin
        rw [Bool.and_eq_true] at hin
        exact ⟨(Option.some_inj.mp hb).symm, d, hd, hin.1, hin.2⟩
      · cases hb
    · cases hb
  · cases hb

theorem dateLe_false {a b : Date} (h : Date.le a b = false) :
    b.year < a.year ∨ (b.year = a.year ∧ (b.month < a.month ∨
      (b.month = a.month ∧ b.day < a.day))) := by
  by_cases hy : a.year < b.year
  · rw [show Date.le a b = true by simp [Date.le, hy]] at h
    cases h
  · by_cases hy2 : b.year < a.year
    · exact Or.inl hy2
    · have hye : a.year = b.year := by omega
      by_cases hm : a.month < b.month
      · rw [show Date.le a b = true by simp [Date.le, hye, hm]] at h
        cases h
      · by_cases hm2 : b.month < a.month
        · exact Or.inr ⟨hye.symm, Or.inl hm2⟩
        · have hme : a.month = b.month := by omega
          by_cases hd : a.day ≤ b.day
          · rw [show Date.le a b = true by simp [Date.le, hye, hme, hd]] at h
            cases h
          · exact Or.inr ⟨hye.symm, Or.inr ⟨hme.symm, by omega⟩⟩

/-- The gathered daily files are in chronological order of their parsed
dates (sorted filenames of canonically named daily files sort by date). -/
theorem weekDailyFiles_date_sorted (lm ls : Date) (daily : List (String × List String))
    (hcanon : ∀ p ∈ daily, strReplace p.1 ".md" "" ++ ".md" = p.1) :
    (weekDailyFiles lm ls daily).Pairwise fun f g =>
      ∀ df dg, fromisoformat (strReplace f ".md" "") = some df →
        fromisoformat (strReplace g ".md" "") = some dg → Date.le df dg = true := by
  have hsorted : ((daily.map Prod.fst).insertionSort
      fun a b => strLe a b = true).Pairwise fun a b => strLe a b = true := by
    haveI : IsTotal String fun a b => strLe a b = true := ⟨fun a b => strLe_total a b⟩
    haveI : IsTrans String fun a b => strLe a b = true := ⟨fun _ _ _ => strLe_trans⟩
    exact List.sorted_insertionSort _ _
  rw [weekDailyFiles]
  rw [List.Pairwise.and_mem] at hsorted
  refine List.Pairwise.filterMap (weekSel lm ls) ?_ hsorted
  rintro a a2 ⟨ha, ha2, hle⟩ b hb b2 hb2
  obtain ⟨rfl, da, hda, _, _⟩ := weekSel_inv hb
  obtain ⟨rfl, da2, hda2, _, _⟩ := weekSel_inv hb2
  intro df dg hdf hdg
  rw [hda] at hdf
  rw [hda2] at hdg
  obtain rfl : da = df := Option.some_inj.mp hdf
  obtain rfl : da2 = dg := Option.some_inj.mp hdg
  have hmem : b ∈ daily.map Prod.fst := (List.perm_insertionSort _ _).subset ha
  have hmem2 : b2 ∈ daily.map Prod.fst := (List.perm_insertionSort _ _).subset ha2
  obtain ⟨p, hp, hp1⟩ := List.mem_map.mp hmem
  obtain ⟨p2, hp2, hp21⟩ := List.mem_map.mp hmem2
  obtain ⟨hiso, _, hy4, _, hm12, _, hd31⟩ := fromisoformat_spec hda
  obtain ⟨hiso2, _, hy42, _, hm122, _, hd312⟩ := fromisoformat_spec hda2
  have hb_eq : b = da.iso ++ ".md" := by
    rw [← hiso]
    have hc := hcanon p hp
    rw [hp1] at hc
    exact hc.symm
  have hb2_eq : b2 = da2.iso ++ ".md" := by
    rw [← hiso2]
    have hc := hcanon p2 hp2
    rw [hp21] at hc
    exact hc.symm
  by_contra hfalse
  rw [Bool.not_eq_true] at hfalse
  have hstrict := dateLe_false hfalse
  have hlt : b2 < b := by
    rw [hb_eq, hb2_eq]
    exact iso_append_lt _ _ (by omega) (by omega) (by omega)
      (by omega) (by omega) (by omega) hstrict
  rw [strLe_iff] at hle
  exact absurd hle (not_le.mpr hlt)

theorem generate_weekly_range_step (lm ls : Date) (σ : Store)
    (h1 : σ.weekly.lookup ("week-" ++ lm.iso ++ ".md") = none)
    (h2 : weekDailyFiles lm ls σ.daily ≠ []) :
    generate_weekly_range lm ls σ = { σ with
      weekly := σ.weekly ++
        [("week-" ++ lm.iso ++ ".md", weeklyContent lm ls σ.daily)],
      daily := σ.daily.filter fun p =>
        !((weekDailyFiles lm ls σ.daily).contains p.1) } := by
  rw [generate_weekly_range]
  rw [h1]
  simp only [Option.isSome_none, Bool.false_eq_true, if_false,
    List.isEmpty_eq_false.mpr h2]

theorem generate_weekly_range_skip (lm ls : Date) (σ : Store)
    (h : (σ.weekly.lookup ("week-" ++ lm.iso ++ ".md")).isSome = true) :
    generate_weekly_range lm ls σ = σ := by
  rw [generate_weekly_range, h]
  rfl

/-- Claim C3: with no Weekly Record yet for the prior week and at least one
in-range Daily Record, running the weekly merge leaves exactly one Weekly
Record for that week, whose content is the header followed by the in-range
Daily Records concatenated in date order; every in-range Daily Record is
deleted, out-of-range ones are untouched, and a second run is a no-op.
(Daily files are canonically named `YYYY-MM-DD.md`, captured by `hcanon`.) -/
theorem c3_weekly_merge (today : Date) (st : Store)
    (hnone : st.weekly.lookup
      ("week-" ++ (last_week_range today).1.iso ++ ".md") = none)
    (hne : weekDailyFiles (last_week_range today).1 (last_week_range today).2
      st.daily ≠ [])
    (hcanon : ∀ p ∈ st.daily, strReplace p.1 ".md" "" ++ ".md" = p.1) :
    generate_weekly today (generate_weekly today st) = generate_weekly today st ∧
    (generate_weekly today st).weekly.lookup
        ("week-" ++ (last_week_range today).1.iso ++ ".md") =
      some (weeklyContent (last_week_range today).1 (last_week_range today).2
        st.daily) ∧
    ((generate_weekly today st).weekly.map Prod.fst).count
        ("week-" ++ (last_week_range today).1.iso ++ ".md") = 1 ∧
    (∀ f ∈ weekDailyFiles (last_week_range today).1 (last_week_range today).2 st.daily,
      f ∉ (generate_weekly today st).daily.map Prod.fst) ∧
    (∀ p ∈ st.daily,
      p.1 ∉ weekDailyFiles (last_week_range today).1 (last_week_range today).2 st.daily →
      p ∈ (generate_weekly today st).daily) ∧
    (weekDailyFiles (last_week_range today).1 (last_week_range today).2
        st.daily).Pairwise fun f g =>
      ∀ df dg, fromisoformat (strReplace f ".md" "") = some df →
        fromisoformat (strReplace g ".md" "") = some dg → Date.le df dg = true := by
  have hgw : generate_weekly today st =
      generate_weekly_range (last_week_range today).1 (last_week_range today).2 st := rfl
  have hstep := generate_weekly_range_step (last_week_range today).1
    (last_week_range today).2 st hnone hne
  have hlook : (generate_weekly today st).weekly.lookup
      ("week-" ++ (last_week_range today).1.iso ++ ".md") =
      some (weeklyContent (last_week_range today).1 (last_week_range today).2
        st.daily) := by
    rw [hgw, hstep]
    show ((st.weekly ++ [_]).lookup _) = _
    rw [List.lookup_append, hnone]
    simp [List.lookup]
  refine ⟨?_, hlook, ?_, ?_, ?_,
    weekDailyFiles_date_sorted _ _ st.daily hcanon⟩
  · rw [hgw]
    show generate_weekly_range _ _ (generate_weekly_range _ _ st) = _
    exact generate_weekly_range_skip _ _ _ (by rw [← hgw, hlook]; rfl)
  · rw [hgw, hstep]
    show ((st.weekly ++ [_]).map Prod.fst).count _ = 1
    rw [List.map_append, List.count_append]
    have hzero : (st.weekly.map Prod.fst).count
        ("week-" ++ (last_week_range today).1.iso ++ ".md") = 0 := by
      apply List.count_eq_zero.mpr
      intro hmem
      obtain ⟨p, hp, hp1⟩ := List.mem_map.mp hmem
      have := List.lookup_eq_none_iff.mp hnone p hp
      rw [hp1] at this
      simp at this
    rw [hzero]
    simp
  · intro f hf hmem
    rw [hgw, hstep] at hmem
    obtain ⟨p, hp, hp1⟩ := List.mem_map.mp hmem
    have hpred := (List.mem_filter.mp hp).2
    rw [Bool.not_eq_eq_eq_not, Bool.not_true] at hpred
    rw [← hp1] at hf
    have : (weekDailyFiles (last_week_range today).1 (last_week_range today).2
        st.daily).contains p.1 = true := List.elem_iff.mpr hf
    rw [this] at hpred
    cases hpred
  · intro p hp hnotin
    rw [hgw, hstep]
    refine List.mem_filter.mpr ⟨hp, ?_⟩
    rw [Bool.not_eq_eq_eq_not, Bool.not_true]
    by_contra hcontra
    rw [Bool.not_eq_false] at hcontra
    exact hnotin (List.elem_iff.mp hcontra)

/-- Claim C3 witness: one in-range daily file on Monday 2025-10-06 (prior
week 2025-09-29 … 2025-10-05) is merged into the new weekly record. -/
theorem c3_weekly_merge_witness :
    (generate_weekly ⟨2025, 10, 6⟩
      ⟨[], [("2025-09-30.md", ["# 📅 2025-09-30 经验总结\n", "\nentry\n"])],
        [], [], []⟩).weekly.lookup
        ("week-" ++ (last_week_range ⟨2025, 10, 6⟩).1.iso ++ ".md") =
      some (weeklyContent (last_week_range ⟨2025, 10, 6⟩).1
        (last_week_range ⟨2025, 10, 6⟩).2
        [("2025-09-30.md", ["# 📅 2025-09-30 经验总结\n", "\nentry\n"])]) :=
  (c3_weekly_merge ⟨2025, 10, 6⟩
    ⟨[], [("2025-09-30.md", ["# 📅 2025-09-30 经验总结\n", "\nentry\n"])],
      [], [], []⟩ (by decide) (by decide) (by decide)).2.1

end ClaudeSummary
